import Mathlib

/-!
Verification of the structured-text parsers and the aspect-ratio geometry
calculator of the story-script-tools repository.

Conventions of the embedding:
* Python strings are modelled as `List Char` (ASCII fragment; the whitespace
  class is the ASCII part of Python's `\s` and `str.strip`).
* Python `int` is modelled as `ℤ`.  The float arithmetic of the geometry
  calculator is modelled exactly: every intermediate float is an exact
  fraction of two integers (`Frac`), kept unnormalized so that all
  operations compute by kernel reduction; `Frac.toRat` interprets a
  fraction as the rational it denotes.  (The spec describes the ratios as
  real-valued; binary-float rounding is not modelled.)
* Python `int(x)` on a float truncates toward zero (`Int.tdiv`).
* Fallible code returns `Option`/`Except`; every Python division site is
  guarded, a zero divisor yields `none` (Python `ZeroDivisionError`).
-/

/-! ### Exact fraction values for Python float expressions -/

/-- An exact, unnormalized fraction `n / d` standing for a Python float. -/
structure Frac where
  n : ℤ
  d : ℤ
  deriving DecidableEq

/-- The rational number a fraction denotes. -/
def Frac.toRat (x : Frac) : ℚ := (x.n : ℚ) / (x.d : ℚ)

/-- Integer division `a / b` as a float: `none` models `ZeroDivisionError`. -/
def mkDiv (a b : ℤ) : Option Frac := if b = 0 then none else some ⟨a, b⟩

/-- Multiplication of an integer by a float, `c * x`. -/
def Frac.intMul (c : ℤ) (x : Frac) : Frac := ⟨c * x.n, x.d⟩

/-- Division of an integer by a float, `c / x`: raises on a zero value. -/
def Frac.intDiv (c : ℤ) (x : Frac) : Option Frac :=
  if x.n = 0 then none else some ⟨c * x.d, x.n⟩

/-- Strict comparison `x > y` of two float values, by cross-multiplication
(the extra factor `x.d * y.d` keeps the test sign-correct for any nonzero
denominators). -/
def Frac.gtB (x y : Frac) : Bool :=
  decide (y.n * x.d * (x.d * y.d) < x.n * y.d * (x.d * y.d))

/-- Python `int(x)` on a float: truncation toward zero. -/
def Frac.trunc (x : Frac) : ℤ := x.n.tdiv x.d

theorem Frac.gtB_iff {x y : Frac} (hx : x.d ≠ 0) (hy : y.d ≠ 0) :
    x.gtB y = true ↔ y.toRat < x.toRat := by
  have hx' : ((x.d : ℚ)) ≠ 0 := Int.cast_ne_zero.mpr hx
  have hy' : ((y.d : ℚ)) ≠ 0 := Int.cast_ne_zero.mpr hy
  have hs : (0 : ℚ) < ((x.d : ℚ) * (y.d : ℚ)) ^ 2 := by positivity
  have e1 : y.toRat * ((x.d : ℚ) * (y.d : ℚ)) ^ 2
      = ((y.n * x.d * (x.d * y.d) : ℤ) : ℚ) := by
    rw [Frac.toRat]; push_cast; field_simp; ring
  have e2 : x.toRat * ((x.d : ℚ) * (y.d : ℚ)) ^ 2
      = ((x.n * y.d * (x.d * y.d) : ℤ) : ℚ) := by
    rw [Frac.toRat]; push_cast; field_simp; ring
  rw [Frac.gtB, decide_eq_true_iff, ← mul_lt_mul_right hs, e1, e2, Int.cast_lt]

theorem Frac.trunc_eq_floor {x : Frac} (hd : 0 < x.d) (hn : 0 ≤ x.n) :
    x.trunc = ⌊x.toRat⌋ := by
  have h1 : x.n.tdiv x.d = x.n / x.d := Int.tdiv_eq_ediv hn hd.le
  have h2 : ((x.d.toNat : ℕ) : ℤ) = x.d := Int.toNat_of_nonneg hd.le
  have h3 : ⌊((x.n : ℚ) / ((x.d.toNat : ℕ) : ℚ))⌋ = x.n / ((x.d.toNat : ℕ) : ℤ) :=
    Rat.floor_intCast_div_natCast x.n x.d.toNat
  rw [Frac.trunc, Frac.toRat, h1]
  rw [show ((x.d : ℚ)) = ((x.d.toNat : ℕ) : ℚ) by exact_mod_cast h2.symm]
  rw [h3, h2]

theorem Frac.toRat_nonneg {x : Frac} (hd : 0 < x.d) (hn : 0 ≤ x.n) :
    0 ≤ x.toRat := by
  rw [Frac.toRat]
  positivity

/-! ### Geometry: `MediaResizer._calculate_dimensions` (media_resizer.py 45-93) -/

/-- Lines 66-74: initial scale holding one side fixed.  `A` is
`target_aspect`, `C` is `current_aspect`. -/
def scaleStep (cw ch : ℤ) (A C : Frac) : Option (ℤ × ℤ) :=
  if C.gtB A then
    some ((Frac.intMul ch A).trunc, ch)
  else
    (Frac.intDiv cw A).map (fun q => (cw, q.trunc))

/-- Lines 76-83: uniform downscale when a dimension exceeds `max_dimension`. -/
def clampStep (nw nh maxd : ℤ) : Option (ℤ × ℤ) :=
  if nw > maxd ∨ nh > maxd then
    (if nw > nh then mkDiv maxd nw else mkDiv maxd nh).map
      (fun scale => ((Frac.intMul nw scale).trunc, (Frac.intMul nh scale).trunc))
  else
    some (nw, nh)

/-- Lines 85-91: canvas ("target") dimensions for the padding step. -/
def canvasStep (nw nh : ℤ) (A : Frac) : Option (ℤ × ℤ) :=
  (mkDiv nw nh).bind (fun R =>
    if R.gtB A then
      some ((Frac.intMul nh A).trunc, nh)
    else
      (Frac.intDiv nw A).map (fun q => (nw, q.trunc)))

/-- The scaled (content) dimensions given a precomputed `target_aspect`. -/
def scaledWithA (cw ch : ℤ) (A : Frac) (maxd : ℤ) : Option (ℤ × ℤ) :=
  (mkDiv cw ch).bind (fun C =>
    (scaleStep cw ch A C).bind (fun p => clampStep p.1 p.2 maxd))

/-- Scaled dimensions of `_calculate_dimensions` (scale plus clamp steps). -/
def scaledDims (cw ch tn td maxd : ℤ) : Option (ℤ × ℤ) :=
  (mkDiv tn td).bind (fun A => scaledWithA cw ch A maxd)

/-- `MediaResizer._calculate_dimensions(cw, ch, (tn, td), maxd)`: returns
`((new_width, new_height), (target_width, target_height))`, or `none` when a
`ZeroDivisionError` is raised. -/
def calculate_dimensions (cw ch tn td maxd : ℤ) : Option ((ℤ × ℤ) × (ℤ × ℤ)) :=
  (mkDiv tn td).bind (fun A =>
    (scaledWithA cw ch A maxd).bind (fun p =>
      (canvasStep p.1 p.2 A).map (fun canvas => (p, canvas))))

example : calculate_dimensions 400 300 16 9 1920 = some ((400, 225), (400, 225)) := by decide

example : calculate_dimensions 1000 700 16 9 1920 = some ((1000, 562), (999, 562)) := by decide

example : calculate_dimensions 1 1 16 9 1920 = none := by decide

example : calculate_dimensions 200 100 16 9 1920 = some ((177, 100), (177, 99)) := by decide

example : calculate_dimensions 4000 3000 16 9 1920 = some ((1920, 1080), (1920, 1080)) := by decide

theorem Frac.trunc_nonneg {n d : ℤ} (hn : 0 ≤ n) (hd : 0 ≤ d) :
    0 ≤ Frac.trunc ⟨n, d⟩ := Int.tdiv_nonneg hn hd

/-- Truncation of a nonnegative fraction is bounded by any integer `m` with
`n ≤ m * d`. -/
theorem Frac.trunc_le {n d m : ℤ} (hd : 0 < d) (hn : 0 ≤ n) (h : n ≤ m * d) :
    Frac.trunc ⟨n, d⟩ ≤ m := by
  have h1 : Frac.trunc ⟨n, d⟩ = ⌊Frac.toRat ⟨n, d⟩⌋ := Frac.trunc_eq_floor hd hn
  have hd' : (0 : ℚ) < (d : ℚ) := by exact_mod_cast hd
  have h2 : Frac.toRat ⟨n, d⟩ ≤ (m : ℚ) := by
    rw [Frac.toRat]
    rw [div_le_iff₀ hd']
    exact_mod_cast h
  calc Frac.trunc ⟨n, d⟩ = ⌊Frac.toRat ⟨n, d⟩⌋ := h1
    _ ≤ ⌊(m : ℚ)⌋ := Int.floor_mono h2
    _ = m := Int.floor_intCast m

/-- The scale step preserves nonnegativity of both dimensions. -/
theorem scaleStep_nonneg {cw ch tn td : ℤ} {C : Frac} {p : ℤ × ℤ}
    (hcw : 0 < cw) (hch : 0 < ch) (htn : 0 < tn) (htd : 0 < td)
    (h : scaleStep cw ch ⟨tn, td⟩ C = some p) : 0 ≤ p.1 ∧ 0 ≤ p.2 := by
  rw [scaleStep] at h
  by_cases hb : C.gtB ⟨tn, td⟩ = true
  · rw [if_pos hb] at h
    cases h
    constructor
    · exact Frac.trunc_nonneg (by positivity) htd.le
    · exact hch.le
  · rw [if_neg hb] at h
    rw [Frac.intDiv] at h
    rw [if_neg (by exact htn.ne')] at h
    cases h
    exact ⟨hcw.le, Frac.trunc_nonneg (by positivity) htn.le⟩

/-- The clamp step never returns a dimension above `max_dimension`. -/
theorem clampStep_le {nw nh maxd : ℤ} {p : ℤ × ℤ}
    (h0w : 0 ≤ nw) (h0h : 0 ≤ nh) (hm : 0 < maxd)
    (h : clampStep nw nh maxd = some p) : p.1 ≤ maxd ∧ p.2 ≤ maxd := by
  rw [clampStep] at h
  by_cases hcond : nw > maxd ∨ nh > maxd
  · rw [if_pos hcond] at h
    by_cases hwh : nw > nh
    · have hnw : 0 < nw := lt_of_le_of_lt h0h hwh
      rw [if_pos hwh, mkDiv, if_neg hnw.ne'] at h
      simp only [Frac.intMul] at h
      cases h
      refine ⟨Frac.trunc_le hnw (by positivity) (by ring_nf; exact le_rfl), ?_⟩
      exact Frac.trunc_le hnw (by positivity)
        (mul_le_mul hwh.le le_rfl hm.le h0w |>.trans (le_of_eq (mul_comm nw maxd)))
    · have hnh : 0 < nh := by
        rcases hcond with hc | hc
        · exact hm.trans (lt_of_lt_of_le hc (not_lt.mp hwh))
        · exact hm.trans hc
      rw [if_neg hwh, mkDiv, if_neg hnh.ne'] at h
      simp only [Frac.intMul] at h
      cases h
      refine ⟨?_, Frac.trunc_le hnh (by positivity) (by ring_nf; exact le_rfl)⟩
      exact Frac.trunc_le hnh (by positivity)
        (mul_le_mul (not_lt.mp hwh) le_rfl hm.le h0h |>.trans (le_of_eq (mul_comm nh maxd)))
  · rw [if_neg hcond] at h
    cases h
    push_neg at hcond
    exact hcond

/-- The scale-plus-clamp pipeline never returns a dimension above
`max_dimension`. -/
theorem scaledWithA_le {cw ch tn td maxd : ℤ} {p : ℤ × ℤ}
    (hcw : 0 < cw) (hch : 0 < ch) (htn : 0 < tn) (htd : 0 < td) (hm : 0 < maxd)
    (h : scaledWithA cw ch ⟨tn, td⟩ maxd = some p) : p.1 ≤ maxd ∧ p.2 ≤ maxd := by
  rw [scaledWithA] at h
  simp only [Option.bind_eq_some] at h
  obtain ⟨C, hC, p0, hp0, hclamp⟩ := h
  rw [mkDiv, if_neg hch.ne'] at hC
  cases hC
  obtain ⟨h1, h2⟩ := scaleStep_nonneg hcw hch htn htd hp0
  exact clampStep_le h1 h2 hm hclamp

/-- C8: for positive source dimensions, target ratio and `max_dimension`,
whenever `_calculate_dimensions` returns, the scaled width and scaled height
are both at most `max_dimension`. -/
theorem c8_scaled_le_max (cw ch tn td maxd : ℤ) (r : (ℤ × ℤ) × (ℤ × ℤ))
    (hcw : 0 < cw) (hch : 0 < ch) (htn : 0 < tn) (htd : 0 < td) (hm : 0 < maxd)
    (h : calculate_dimensions cw ch tn td maxd = some r) :
    r.1.1 ≤ maxd ∧ r.1.2 ≤ maxd := by
  rw [calculate_dimensions] at h
  simp only [Option.bind_eq_some, Option.map_eq_some'] at h
  obtain ⟨A, hA, p, hp, canvas, hc, hr⟩ := h
  rw [mkDiv, if_neg htd.ne'] at hA
  cases hA
  have hle := scaledWithA_le hcw hch htn htd hm hp
  rw [← hr]
  exact hle

/-- Witness for C8 at the concrete input `4000×3000`, ratio `16:9`,
`max_dimension = 1920`. -/
theorem c8_scaled_le_max_witness :
    calculate_dimensions 4000 3000 16 9 1920 = some ((1920, 1080), (1920, 1080)) ∧
    ((1920, 1080), (1920, 1080)).1.1 ≤ (1920 : ℤ) ∧
      ((1920, 1080), (1920, 1080)).1.2 ≤ (1920 : ℤ) :=
  ⟨by decide,
    c8_scaled_le_max 4000 3000 16 9 1920 ((1920, 1080), (1920, 1080))
      (by decide) (by decide) (by decide) (by decide) (by decide) (by decide)⟩

/-- C7: on a 400×300 source with target ratio 16:9 and `max_dimension`
1920, `_calculate_dimensions` returns scaled `(400, 225)` and canvas
`(400, 225)`. -/
theorem c7_example_400x300 :
    calculate_dimensions 400 300 16 9 1920 = some ((400, 225), (400, 225)) := by
  decide

/-- C1: the claim `canvas_w ≥ scaled_w ∧ canvas_h ≥ scaled_h` fails on the
code: on a 1000×700 source with target ratio 16:9 the function returns
scaled `(1000, 562)` but canvas `(999, 562)`, so the horizontal padding
`canvas_w - scaled_w` is negative (the caller then pastes at a negative
offset, cropping one column). -/
theorem c1_canvas_smaller_than_scaled :
    calculate_dimensions 1000 700 16 9 1920 = some ((1000, 562), (999, 562)) ∧
    (999 : ℤ) < 1000 := by
  decide

/-- C2 (counterexample): at 200×100 with target ratio 16:9 the code's scale
step truncates `100 * 16/9` to 177, while the claimed
round-to-nearest gives 178. -/
theorem c2_truncation_not_round :
    calculate_dimensions 200 100 16 9 1920 = some ((177, 100), (177, 99)) ∧
    round ((100 : ℚ) * (16 / 9)) = 178 ∧ (177 : ℤ) ≠ 178 := by
  refine ⟨by decide, ?_, by decide⟩
  rw [round_eq]
  rw [show (100 : ℚ) * (16 / 9) + 1 / 2 = ((3209 : ℤ) : ℚ) / ((18 : ℕ) : ℚ) by norm_num]
  rw [Rat.floor_intCast_div_natCast]
  decide

/-- C2 (amended): in the scale step, when `current_w/current_h` exceeds
`target_num/target_den` (equivalently `tn*ch < cw*td`), the scaled pair is
`(⌊ch*tn/td⌋, ch)` — floor division, i.e. Python `int()` truncation, not
rounding to nearest; otherwise it is `(cw, ⌊cw*td/tn⌋)`. -/
theorem c2_scale_step_floors (cw ch tn td : ℤ)
    (hcw : 0 < cw) (hch : 0 < ch) (htn : 0 < tn) (htd : 0 < td) :
    (tn * ch < cw * td →
      scaleStep cw ch ⟨tn, td⟩ ⟨cw, ch⟩ = some ((ch * tn) / td, ch)) ∧
    (cw * td ≤ tn * ch →
      scaleStep cw ch ⟨tn, td⟩ ⟨cw, ch⟩ = some (cw, (cw * td) / tn)) := by
  have hb : (Frac.gtB ⟨cw, ch⟩ ⟨tn, td⟩ = true) ↔ tn * ch < cw * td := by
    rw [Frac.gtB, decide_eq_true_iff]
    exact mul_lt_mul_right (by positivity)
  constructor
  · intro h
    rw [scaleStep, if_pos (hb.mpr h)]
    simp only [Frac.intMul, Frac.trunc]
    rw [Int.tdiv_eq_ediv (by positivity) htd.le]
  · intro h
    rw [scaleStep, if_neg (by rw [hb]; exact not_lt.mpr h)]
    rw [Frac.intDiv, if_neg htn.ne']
    simp only [Option.map_some', Frac.trunc]
    rw [Int.tdiv_eq_ediv (by positivity) htn.le]

/-- Witness for amended C2 at 200×100, ratio 16:9: the wider branch fires
and the scaled width is the floor 177. -/
theorem c2_scale_step_floors_witness :
    (16 * 100 : ℤ) < 200 * 9 ∧
    scaleStep 200 100 ⟨16, 9⟩ ⟨200, 100⟩ = some (177, 100) := by
  refine ⟨by decide, ?_⟩
  have h := (c2_scale_step_floors 200 100 16 9
    (by decide) (by decide) (by decide) (by decide)).1 (by decide)
  rw [h]
  decide

/-- C4 (counterexample): on the positive input 1×1 with target ratio 16:9
the geometry computation raises `ZeroDivisionError` (the scaled height is
truncated to 0 and the canvas step divides by it). -/
theorem c4_division_by_zero_at_unit_square :
    calculate_dimensions 1 1 16 9 1920 = none := by
  decide

/-- C4 (amended): the geometry computation completes without error
provided the scaled height produced by the scale-and-clamp steps is
positive (which degenerate small inputs such as 1×1 at 16:9 violate). -/
theorem c4_total_when_scaled_height_pos (cw ch tn td maxd w h : ℤ)
    (htn : 0 < tn) (htd : 0 < td)
    (hs : scaledDims cw ch tn td maxd = some (w, h)) (hh : 0 < h) :
    (calculate_dimensions cw ch tn td maxd).isSome = true := by
  rw [scaledDims] at hs
  simp only [Option.bind_eq_some] at hs
  obtain ⟨A, hA, hswa⟩ := hs
  rw [mkDiv, if_neg htd.ne'] at hA
  cases hA
  rw [calculate_dimensions, mkDiv, if_neg htd.ne']
  simp only [Option.some_bind]
  rw [hswa]
  simp only [Option.some_bind]
  rw [canvasStep, mkDiv, if_neg hh.ne']
  simp only [Option.some_bind]
  by_cases hg : Frac.gtB ⟨w, h⟩ ⟨tn, td⟩ = true
  · rw [if_pos hg]
    simp
  · rw [if_neg hg, Frac.intDiv, if_neg htn.ne']
    simp

/-- Witness for amended C4 at 400×300, ratio 16:9: the scaled height 225 is
positive and the computation completes. -/
theorem c4_total_when_scaled_height_pos_witness :
    scaledDims 400 300 16 9 1920 = some (400, 225) ∧
    (calculate_dimensions 400 300 16 9 1920).isSome = true :=
  ⟨by decide,
    c4_total_when_scaled_height_pos 400 300 16 9 1920 400 225
      (by decide) (by decide) (by decide) (by decide)⟩

/-! ### String utilities shared by both parsers

Python strings are `List Char`; `isSpaceC` is the ASCII part of the class
`\s` used by the `re` module and of the set stripped by `str.strip()`. -/

/-- ASCII whitespace: space, tab, newline, carriage return, vertical tab,
form feed. -/
def isSpaceC (c : Char) : Bool :=
  c == ' ' || c == '\t' || c == '\n' || c == '\r' ||
    c == Char.ofNat 11 || c == Char.ofNat 12

/-- ASCII decimal digit (regex `\d`, ASCII fragment). -/
def isDigitC (c : Char) : Bool := decide (48 ≤ c.toNat ∧ c.toNat ≤ 57)

/-- Python `str.strip()`: remove leading and trailing whitespace. -/
def stripChars (l : List Char) : List Char :=
  ((l.dropWhile isSpaceC).reverse.dropWhile isSpaceC).reverse

/-- Numeric value of a digit character. -/
def digitVal (c : Char) : ℕ := c.toNat - 48

/-- Value of a digit string, as `int()` computes it on pure digits. -/
def digitsToNat (l : List Char) : ℕ := l.foldl (fun n c => 10 * n + digitVal c) 0

/-- Match one expected literal character at the head of the input. -/
def matchCh (c : Char) : List Char → Option (List Char)
  | x :: rest => if x = c then some rest else none
  | [] => none

theorem matchCh_eq_some {c : Char} {l r : List Char} :
    matchCh c l = some r ↔ l = c :: r := by
  cases l with
  | nil => simp [matchCh]
  | cons x rest =>
    by_cases hx : x = c
    · subst hx
      simp [matchCh]
    · simp [matchCh, hx]

/-- The six ASCII whitespace characters, as plain equations. -/
theorem isSpaceC_cases {c : Char} (h : isSpaceC c = true) :
    c = ' ' ∨ c = '\t' ∨ c = '\n' ∨ c = '\r' ∨ c = Char.ofNat 11 ∨ c = Char.ofNat 12 := by
  rw [isSpaceC] at h
  simp only [Bool.or_eq_true, beq_iff_eq] at h
  tauto

theorem isDigitC_ne_space {c : Char} (h : isDigitC c = true) : isSpaceC c = false := by
  by_contra hs
  rw [Bool.not_eq_false] at hs
  rcases isSpaceC_cases hs with rfl | rfl | rfl | rfl | rfl | rfl <;>
    exact absurd h (by decide)

/-! ### Narrative parser: `parse_story_script` (story_parser.py)

The scene pattern is the regex `Scene\s+(\d+):(.+?)(?=Scene\s+\d+:|$)` with
`re.DOTALL`.  `matchMarker` recognises the marker part `Scene\s+(\d+):` at
the head of the input; both `\s+` and `\d+` are greedy with no possible
backtracking (a shorter whitespace run is followed by whitespace, a shorter
digit run is followed by a digit). -/

/-- Match `\s+(\d+):` at the head of the input, returning the captured
number and the remainder. -/
def matchTail (l : List Char) : Option (ℕ × List Char) :=
  if (l.takeWhile isSpaceC).isEmpty then none
  else if ((l.dropWhile isSpaceC).takeWhile isDigitC).isEmpty then none
  else
    (matchCh ':' ((l.dropWhile isSpaceC).dropWhile isDigitC)).map
      (fun rest => (digitsToNat ((l.dropWhile isSpaceC).takeWhile isDigitC), rest))

/-- Match the full marker `Scene\s+(\d+):` at the head of the input. -/
def matchMarker : List Char → Option (ℕ × List Char)
  | c1 :: c2 :: c3 :: c4 :: c5 :: rest =>
    if c1 = 'S' ∧ c2 = 'c' ∧ c3 = 'e' ∧ c4 = 'n' ∧ c5 = 'e' then matchTail rest
    else none
  | _ => none

/-- Does a marker start at this position? (the lookahead `(?=Scene\s+\d+:)`). -/
def markerAt (l : List Char) : Bool := (matchMarker l).isSome

/-- Structure of a successful `matchTail`. -/
theorem matchTail_eq_some {l : List Char} {n : ℕ} {rest : List Char}
    (h : matchTail l = some (n, rest)) :
    ∃ sp ds, l = sp ++ ds ++ ':' :: rest ∧ sp ≠ [] ∧
      (∀ c ∈ sp, isSpaceC c = true) ∧ ds ≠ [] ∧
      (∀ c ∈ ds, isDigitC c = true) ∧ n = digitsToNat ds := by
  rw [matchTail] at h
  split_ifs at h with h1 h2
  rw [Option.map_eq_some'] at h
  obtain ⟨r, hr, he⟩ := h
  rw [matchCh_eq_some] at hr
  have he1 : digitsToNat ((l.dropWhile isSpaceC).takeWhile isDigitC) = n := congrArg Prod.fst he
  have he2 : r = rest := congrArg Prod.snd he
  subst he2
  refine ⟨l.takeWhile isSpaceC, (l.dropWhile isSpaceC).takeWhile isDigitC, ?_, ?_, ?_, ?_, ?_, he1.symm⟩
  · conv_lhs => rw [← List.takeWhile_append_dropWhile (p := isSpaceC) (l := l)]
    rw [List.append_assoc]
    congr 1
    conv_lhs => rw [← List.takeWhile_append_dropWhile (p := isDigitC) (l := l.dropWhile isSpaceC)]
    rw [hr]
  · simpa using h1
  · intro c hc
    exact List.mem_takeWhile_imp hc
  · simpa using h2
  · intro c hc
    exact List.mem_takeWhile_imp hc

/-- A successful `matchTail` consumes at least two characters. -/
theorem matchTail_length {l : List Char} {n : ℕ} {rest : List Char}
    (h : matchTail l = some (n, rest)) : rest.length < l.length := by
  obtain ⟨sp, ds, hl, hsp, -, hds, -, -⟩ := matchTail_eq_some h
  rw [hl]
  simp only [List.length_append, List.length_cons]
  have h1 : 0 < sp.length := List.length_pos.mpr hsp
  have h2 : 0 < ds.length := List.length_pos.mpr hds
  omega

/-- Structure of a successful `matchMarker`. -/
theorem matchMarker_eq_some {l : List Char} {n : ℕ} {rest : List Char}
    (h : matchMarker l = some (n, rest)) :
    ∃ sp ds, l = 'S' :: 'c' :: 'e' :: 'n' :: 'e' :: (sp ++ ds ++ ':' :: rest) ∧
      sp ≠ [] ∧ (∀ c ∈ sp, isSpaceC c = true) ∧ ds ≠ [] ∧
      (∀ c ∈ ds, isDigitC c = true) ∧ n = digitsToNat ds := by
  match l with
  | [] => exact absurd h (by simp [matchMarker])
  | [c1] => exact absurd h (by simp [matchMarker])
  | [c1, c2] => exact absurd h (by simp [matchMarker])
  | [c1, c2, c3] => exact absurd h (by simp [matchMarker])
  | [c1, c2, c3, c4] => exact absurd h (by simp [matchMarker])
  | c1 :: c2 :: c3 :: c4 :: c5 :: r =>
    rw [matchMarker] at h
    split_ifs at h with hc
    obtain ⟨rfl, rfl, rfl, rfl, rfl⟩ := hc
    obtain ⟨sp, ds, hr, hsp, hsp2, hds, hds2, hn⟩ := matchTail_eq_some h
    exact ⟨sp, ds, by rw [hr], hsp, hsp2, hds, hds2, hn⟩

/-- A successful `matchMarker` consumes at least one character. -/
theorem matchMarker_length {l : List Char} {n : ℕ} {rest : List Char}
    (h : matchMarker l = some (n, rest)) : rest.length < l.length := by
  obtain ⟨sp, ds, hl, hsp, -, hds, -, -⟩ := matchMarker_eq_some h
  rw [hl]
  simp only [List.length_cons, List.length_append]
  omega

/-- A marker never starts with anything but `S`. -/
theorem matchMarker_head_ne {c : Char} {cs : List Char} (hc : c ≠ 'S') :
    matchMarker (c :: cs) = none := by
  match cs with
  | [] => rfl
  | [c2] => rfl
  | [c2, c3] => rfl
  | [c2, c3, c4] => rfl
  | c2 :: c3 :: c4 :: c5 :: r =>
    rw [matchMarker]
    rw [if_neg]
    intro hand
    exact hc hand.1

/-- The lazy body `(.+?)` with lookahead `(?=Scene\s+\d+:|$)`: consume at
least one character, then stop at the first position that starts a marker
or is the end of the input; `none` when the input is empty (`.+?` needs at
least one character). -/
def takeBody : List Char → Option (List Char × List Char)
  | [] => none
  | c :: cs =>
    if cs.isEmpty ∨ markerAt cs then some ([c], cs)
    else (takeBody cs).map (fun p => (c :: p.1, p.2))

theorem takeBody_isSome {l : List Char} (h : l ≠ []) : (takeBody l).isSome = true := by
  induction l with
  | nil => exact absurd rfl h
  | cons c cs ih =>
    rw [takeBody]
    by_cases hc : cs.isEmpty = true ∨ markerAt cs = true
    · rw [if_pos hc]
      rfl
    · rw [if_neg hc]
      have hcs : cs ≠ [] := by
        intro he
        exact hc (Or.inl (by simp [he]))
      have hs := ih hcs
      cases htb : takeBody cs with
      | none => rw [htb] at hs; exact absurd hs (by simp)
      | some q => rfl

theorem takeBody_length {l : List Char} {p : List Char × List Char}
    (h : takeBody l = some p) : p.2.length < l.length := by
  induction l generalizing p with
  | nil => exact absurd h (by simp [takeBody])
  | cons c cs ih =>
    rw [takeBody] at h
    by_cases hc : cs.isEmpty = true ∨ markerAt cs = true
    · rw [if_pos hc] at h
      cases h
      simp
    · rw [if_neg hc] at h
      rw [Option.map_eq_some'] at h
      obtain ⟨q, hq, he⟩ := h
      have := ih hq
      rw [← he]
      simp only [List.length_cons]
      omega

/-- Number of positions of the text at which a marker starts. -/
def countMarkers : List Char → ℕ
  | [] => 0
  | c :: cs => (if markerAt (c :: cs) = true then 1 else 0) + countMarkers cs

/-- The segment before the first marker position (the spec's "everything
between its marker and the next marker, or end of string"). -/
def upToMarker : List Char → List Char
  | [] => []
  | c :: cs => if markerAt (c :: cs) = true then [] else c :: upToMarker cs

/-- The suffix starting at the first marker position (empty when no marker
occurs). -/
def fromMarker : List Char → List Char
  | [] => []
  | c :: cs => if markerAt (c :: cs) = true then c :: cs else fromMarker cs

theorem fromMarker_length_le (l : List Char) : (fromMarker l).length ≤ l.length := by
  induction l with
  | nil => simp [fromMarker]
  | cons c cs ih =>
    rw [fromMarker]
    by_cases hc : markerAt (c :: cs) = true
    · rw [if_pos hc]
    · rw [if_neg hc]
      simp only [List.length_cons]
      omega

/-- `re.finditer` over the scene pattern, fueled for structural recursion:
at each position try the marker; on success take the lazy body and continue
after it, otherwise advance one position. -/
def findScenesF : ℕ → List Char → List (ℕ × List Char)
  | 0, _ => []
  | _ + 1, [] => []
  | fuel + 1, c :: cs =>
    match matchMarker (c :: cs) with
    | some (n, rest) =>
      match takeBody rest with
      | some p => (n, p.1) :: findScenesF fuel p.2
      | none => findScenesF fuel cs
    | none => findScenesF fuel cs

theorem findScenesF_fuel : ∀ (f1 f2 : ℕ) (l : List Char),
    l.length ≤ f1 → l.length ≤ f2 → findScenesF f1 l = findScenesF f2 l := by
  intro f1
  induction f1 with
  | zero =>
    intro f2 l h1 _
    have hl : l = [] := List.length_eq_zero.mp (Nat.le_zero.mp h1)
    subst hl
    cases f2 <;> rfl
  | succ f ih =>
    intro f2 l h1 h2
    cases l with
    | nil => cases f2 <;> rfl
    | cons c cs =>
      cases f2 with
      | zero => simp at h2
      | succ f2' =>
        simp only [List.length_cons] at h1 h2
        simp only [findScenesF]
        cases hm : matchMarker (c :: cs) with
        | none =>
          simp only [hm]
          exact ih f2' cs (by omega) (by omega)
        | some pr =>
          obtain ⟨n, rest⟩ := pr
          have hr := matchMarker_length hm
          simp only [List.length_cons] at hr
          simp only [hm]
          cases hb : takeBody rest with
          | none =>
            simp only [hb]
            exact ih f2' cs (by omega) (by omega)
          | some p =>
            have ht := takeBody_length hb
            simp only [hb]
            congr 1
            exact ih f2' p.2 (by omega) (by omega)

/-- All scene matches of the narrative regex, in source order, with their
raw (unstripped) bodies. -/
def findScenes (l : List Char) : List (ℕ × List Char) :=
  findScenesF (l.length + 1) l

theorem findScenes_nil : findScenes [] = [] := rfl

theorem findScenes_cons_none {c : Char} {cs : List Char}
    (hm : matchMarker (c :: cs) = none) :
    findScenes (c :: cs) = findScenes cs := by
  rw [findScenes, findScenes, List.length_cons]
  simp only [findScenesF, hm]

theorem findScenes_cons_skip {c : Char} {cs rest : List Char} {n : ℕ}
    (hm : matchMarker (c :: cs) = some (n, rest)) (hb : takeBody rest = none) :
    findScenes (c :: cs) = findScenes cs := by
  rw [findScenes, findScenes, List.length_cons]
  simp only [findScenesF, hm, hb]

theorem findScenes_cons_match {c : Char} {cs rest : List Char} {n : ℕ}
    {p : List Char × List Char}
    (hm : matchMarker (c :: cs) = some (n, rest)) (hb : takeBody rest = some p) :
    findScenes (c :: cs) = (n, p.1) :: findScenes p.2 := by
  rw [findScenes, findScenes, List.length_cons]
  simp only [findScenesF, hm, hb]
  have hr := matchMarker_length hm
  have ht := takeBody_length hb
  simp only [List.length_cons] at hr
  congr 1
  exact findScenesF_fuel (cs.length + 1) (p.2.length + 1) p.2 (by omega) (by omega)

/-- The spec's reading of the parser: one scene per marker, in source
order, the body being everything between the marker and the next marker (or
the end of the string), trimmed.  Fueled like `findScenesF`. -/
def specScenesF : ℕ → List Char → List (ℕ × List Char)
  | 0, _ => []
  | _ + 1, [] => []
  | fuel + 1, c :: cs =>
    match matchMarker (c :: cs) with
    | some (n, rest) => (n, upToMarker rest) :: specScenesF fuel (fromMarker rest)
    | none => specScenesF fuel cs

theorem specScenesF_fuel : ∀ (f1 f2 : ℕ) (l : List Char),
    l.length ≤ f1 → l.length ≤ f2 → specScenesF f1 l = specScenesF f2 l := by
  intro f1
  induction f1 with
  | zero =>
    intro f2 l h1 _
    have hl : l = [] := List.length_eq_zero.mp (Nat.le_zero.mp h1)
    subst hl
    cases f2 <;> rfl
  | succ f ih =>
    intro f2 l h1 h2
    cases l with
    | nil => cases f2 <;> rfl
    | cons c cs =>
      cases f2 with
      | zero => simp at h2
      | succ f2' =>
        simp only [List.length_cons] at h1 h2
        simp only [specScenesF]
        cases hm : matchMarker (c :: cs) with
        | none =>
          simp only [hm]
          exact ih f2' cs (by omega) (by omega)
        | some pr =>
          obtain ⟨n, rest⟩ := pr
          have hr := matchMarker_length hm
          simp only [List.length_cons] at hr
          have hf := fromMarker_length_le rest
          simp only [hm]
          congr 1
          exact ih f2' (fromMarker rest) (by omega) (by omega)

/-- Scenes as the spec describes them: marker number plus raw text up to
the next marker. -/
def specScenes (l : List Char) : List (ℕ × List Char) :=
  specScenesF (l.length + 1) l

theorem specScenes_nil : specScenes [] = [] := rfl

theorem specScenes_cons_none {c : Char} {cs : List Char}
    (hm : matchMarker (c :: cs) = none) :
    specScenes (c :: cs) = specScenes cs := by
  rw [specScenes, specScenes, List.length_cons]
  simp only [specScenesF, hm]

theorem specScenes_cons_some {c : Char} {cs rest : List Char} {n : ℕ}
    (hm : matchMarker (c :: cs) = some (n, rest)) :
    specScenes (c :: cs) = (n, upToMarker rest) :: specScenes (fromMarker rest) := by
  rw [specScenes, specScenes, List.length_cons]
  simp only [specScenesF, hm]
  have hr := matchMarker_length hm
  have hf := fromMarker_length_le rest
  simp only [List.length_cons] at hr
  congr 1
  exact specScenesF_fuel (cs.length + 1) ((fromMarker rest).length + 1) (fromMarker rest)
    (by omega) (by omega)

/-- A text is gap-sound when every marker occurrence is followed by at
least one character that does not itself start a marker (the situation in
which the regex's mandatory lazy body `(.+?)` coincides with the spec's
"everything between the markers"). -/
def goodGaps : List Char → Bool
  | [] => true
  | c :: cs =>
    (match matchMarker (c :: cs) with
     | some p => !p.2.isEmpty && !markerAt p.2
     | none => true) && goodGaps cs

/-- Does some marker occurrence have at least one character after it?
(exactly when the regex finds at least one match). -/
def hasMarkerBody : List Char → Bool
  | [] => false
  | c :: cs =>
    (match matchMarker (c :: cs) with
     | some p => !p.2.isEmpty
     | none => false) || hasMarkerBody cs

/-- A scene as `parse_story_script` returns it. -/
structure Scene where
  scene_number : ℕ
  description : List Char
  deriving DecidableEq

/-- The two `ValueError`s of `parse_story_script` (story_parser.py 41-69;
the `isinstance` check is outside this typed embedding). -/
inductive StoryError
  | invalidInput
  | noScenesFound
  deriving DecidableEq

/-- The scene dictionaries built from the regex matches (lines 56-65). -/
def storyScenes (s : List Char) : List Scene :=
  (findScenes s).map (fun p => ⟨p.1, stripChars p.2⟩)

/-- `parse_story_script` (story_parser.py 41-71). -/
def parse_story_script (s : List Char) : Except StoryError (List Scene) :=
  if (stripChars s).isEmpty then .error .invalidInput
  else if (storyScenes s).isEmpty then .error .noScenesFound
  else .ok (storyScenes s)

example : findScenes (("Scene 1: A\nScene 2: B").toList) =
    [(1, (" A\n").toList), (2, (" B").toList)] := by decide

example : storyScenes (("Scene 1: A\nScene 2: B").toList) =
    [⟨1, ("A").toList⟩, ⟨2, ("B").toList⟩] := by decide

example : findScenes (("Scene 1:").toList) = [] := by decide

example : findScenes (("Scene 1:Scene 2: B").toList) =
    [(1, ("Scene 2: B").toList)] := by decide

example : countMarkers (("Scene 1:Scene 2: B").toList) = 2 := by decide

theorem isSpaceC_ne_S {c : Char} (h : isSpaceC c = true) : c ≠ 'S' := by
  rcases isSpaceC_cases h with rfl | rfl | rfl | rfl | rfl | rfl <;> decide

theorem isDigitC_ne_S {c : Char} (h : isDigitC c = true) : c ≠ 'S' := by
  intro he
  subst he
  exact absurd h (by decide)

theorem markerAt_cons_ne {c : Char} {cs : List Char} (hc : c ≠ 'S') :
    markerAt (c :: cs) = false := by
  rw [markerAt, matchMarker_head_ne hc]
  rfl

theorem markerAt_nil : markerAt [] = false := rfl

theorem upToMarker_of_marker {l : List Char} (h : markerAt l = true) :
    upToMarker l = [] := by
  cases l with
  | nil => rfl
  | cons c cs => rw [upToMarker, if_pos h]

theorem fromMarker_of_marker {l : List Char} (h : markerAt l = true) :
    fromMarker l = l := by
  cases l with
  | nil => rfl
  | cons c cs => rw [fromMarker, if_pos h]

/-- On a gap that is nonempty and does not immediately start a marker, the
regex's lazy body splits the input exactly where the spec's "up to the next
marker" does. -/
theorem takeBody_eq_split {l : List Char} (hne : l ≠ []) (hm : markerAt l = false) :
    takeBody l = some (upToMarker l, fromMarker l) := by
  induction l with
  | nil => exact absurd rfl hne
  | cons c cs ih =>
    have hmf : ¬ (markerAt (c :: cs) = true) := by rw [hm]; simp
    rw [upToMarker, if_neg hmf, fromMarker, if_neg hmf, takeBody]
    by_cases hc : cs.isEmpty = true ∨ markerAt cs = true
    · rw [if_pos hc]
      rcases hc with hc | hc
      · have : cs = [] := List.isEmpty_iff.mp hc
        subst this
        rfl
      · rw [upToMarker_of_marker hc, fromMarker_of_marker hc]
    · rw [if_neg hc]
      push_neg at hc
      obtain ⟨hc1, hc2⟩ := hc
      have hcs : cs ≠ [] := by
        intro he
        exact hc1 (by simp [he])
      rw [ih hcs (by simpa using hc2)]
      rfl

theorem matchMarker_rest_suffix {l rest : List Char} {n : ℕ}
    (h : matchMarker l = some (n, rest)) : rest <:+ l := by
  obtain ⟨sp, ds, heq, -, -, -, -, -⟩ := matchMarker_eq_some h
  refine ⟨'S' :: 'c' :: 'e' :: 'n' :: 'e' :: (sp ++ ds ++ [':']), ?_⟩
  rw [heq]
  simp

theorem fromMarker_suffix (l : List Char) : fromMarker l <:+ l := by
  induction l with
  | nil => exact ⟨[], rfl⟩
  | cons c cs ih =>
    rw [fromMarker]
    by_cases hc : markerAt (c :: cs) = true
    · rw [if_pos hc]
    · rw [if_neg hc]
      exact ih.trans (List.suffix_cons c cs)

theorem goodGaps_cons {c : Char} {cs : List Char} (h : goodGaps (c :: cs) = true) :
    goodGaps cs = true := by
  rw [goodGaps, Bool.and_eq_true] at h
  exact h.2

theorem goodGaps_suffix {l t : List Char} (h : t <:+ l) (hg : goodGaps l = true) :
    goodGaps t = true := by
  obtain ⟨u, rfl⟩ := h
  induction u with
  | nil => exact hg
  | cons c u' ih => exact ih (goodGaps_cons hg)

/-- No marker starts at a position that is strictly inside another marker:
counting markers walks past a matched marker in one step. -/
theorem countMarkers_append_ne_S {u v : List Char} (hu : ∀ c ∈ u, c ≠ 'S') :
    countMarkers (u ++ v) = countMarkers v := by
  induction u with
  | nil => rfl
  | cons c u' ih =>
    rw [List.cons_append, countMarkers,
      markerAt_cons_ne (hu c (List.mem_cons_self c u'))]
    simp only [if_neg Bool.false_ne_true, Nat.zero_add]
    exact ih (fun x hx => hu x (List.mem_cons_of_mem c hx))

theorem countMarkers_marker {c : Char} {cs rest : List Char} {n : ℕ}
    (hm : matchMarker (c :: cs) = some (n, rest)) :
    countMarkers (c :: cs) = 1 + countMarkers rest := by
  obtain ⟨sp, ds, heq, -, hsp2, -, hds2, -⟩ := matchMarker_eq_some hm
  have hmk : markerAt (c :: cs) = true := by rw [markerAt, hm]; rfl
  rw [countMarkers, if_pos hmk]
  congr 1
  have hcs : cs = 'c' :: 'e' :: 'n' :: 'e' :: (sp ++ ds ++ ':' :: rest) := by
    have h0 := heq
    injection h0 with h1 h2
  rw [hcs]
  rw [show ('c' :: 'e' :: 'n' :: 'e' :: (sp ++ ds ++ ':' :: rest))
      = ('c' :: 'e' :: 'n' :: 'e' :: (sp ++ ds ++ [':'])) ++ rest from by simp]
  apply countMarkers_append_ne_S
  intro x hx
  simp only [List.mem_cons, List.mem_append, List.not_mem_nil, or_false] at hx
  rcases hx with rfl | rfl | rfl | rfl | (hx | hx) | rfl
  · decide
  · decide
  · decide
  · decide
  · exact isSpaceC_ne_S (hsp2 x hx)
  · exact isDigitC_ne_S (hds2 x hx)
  · decide

theorem countMarkers_fromMarker (l : List Char) :
    countMarkers (fromMarker l) = countMarkers l := by
  induction l with
  | nil => rfl
  | cons c cs ih =>
    rw [fromMarker]
    by_cases hc : markerAt (c :: cs) = true
    · rw [if_pos hc]
    · rw [if_neg hc, countMarkers, if_neg hc]
      simpa using ih

/-- On gap-sound texts the regex scanner and the spec's splitter agree. -/
theorem findScenes_eq_spec : ∀ (k : ℕ) (s : List Char), s.length ≤ k →
    goodGaps s = true → findScenes s = specScenes s := by
  intro k
  induction k with
  | zero =>
    intro s hs _
    have h0 : s = [] := List.length_eq_zero.mp (Nat.le_zero.mp hs)
    subst h0
    rfl
  | succ k ih =>
    intro s hs hg
    cases s with
    | nil => rfl
    | cons c cs =>
      simp only [List.length_cons] at hs
      cases hm : matchMarker (c :: cs) with
      | none =>
        rw [findScenes_cons_none hm, specScenes_cons_none hm]
        exact ih cs (by omega) (goodGaps_cons hg)
      | some pr =>
        obtain ⟨n, rest⟩ := pr
        have hcond : rest.isEmpty = false ∧ markerAt rest = false := by
          have hgg := hg
          rw [goodGaps, Bool.and_eq_true] at hgg
          have h1 := hgg.1
          rw [hm] at h1
          simp only [Bool.and_eq_true, Bool.not_eq_true'] at h1
          exact h1
        have hne : rest ≠ [] := by
          cases rest with
          | nil => exact absurd hcond.1 (by simp)
          | cons r rs => simp
        have htb : takeBody rest = some (upToMarker rest, fromMarker rest) :=
          takeBody_eq_split hne hcond.2
        rw [findScenes_cons_match hm htb, specScenes_cons_some hm]
        congr 1
        have hlen1 := matchMarker_length hm
        have hlen2 := fromMarker_length_le rest
        simp only [List.length_cons] at hlen1
        apply ih (fromMarker rest) (by omega)
        exact goodGaps_suffix ((fromMarker_suffix rest).trans (matchMarker_rest_suffix hm)) hg

/-- The spec splitter yields exactly one scene per marker occurrence. -/
theorem specScenes_length : ∀ (k : ℕ) (s : List Char), s.length ≤ k →
    (specScenes s).length = countMarkers s := by
  intro k
  induction k with
  | zero =>
    intro s hs
    have h0 : s = [] := List.length_eq_zero.mp (Nat.le_zero.mp hs)
    subst h0
    rfl
  | succ k ih =>
    intro s hs
    cases s with
    | nil => rfl
    | cons c cs =>
      simp only [List.length_cons] at hs
      cases hm : matchMarker (c :: cs) with
      | none =>
        rw [specScenes_cons_none hm, countMarkers,
          if_neg (by rw [markerAt, hm]; simp), ih cs (by omega)]
        simp
      | some pr =>
        obtain ⟨n, rest⟩ := pr
        have hlen1 := matchMarker_length hm
        have hlen2 := fromMarker_length_le rest
        simp only [List.length_cons] at hlen1
        rw [specScenes_cons_some hm, countMarkers_marker hm, List.length_cons,
          ih (fromMarker rest) (by omega), countMarkers_fromMarker]
        omega

/-- The regex finds at least one scene exactly when some marker is followed
by at least one character. -/
theorem findScenes_nil_iff : ∀ (k : ℕ) (s : List Char), s.length ≤ k →
    (findScenes s = [] ↔ hasMarkerBody s = false) := by
  intro k
  induction k with
  | zero =>
    intro s hs
    have h0 : s = [] := List.length_eq_zero.mp (Nat.le_zero.mp hs)
    subst h0
    simp [findScenes_nil, hasMarkerBody]
  | succ k ih =>
    intro s hs
    cases s with
    | nil => simp [findScenes_nil, hasMarkerBody]
    | cons c cs =>
      simp only [List.length_cons] at hs
      cases hm : matchMarker (c :: cs) with
      | none =>
        rw [findScenes_cons_none hm, hasMarkerBody]
        simp only [hm, Bool.false_or]
        exact ih cs (by omega)
      | some pr =>
        obtain ⟨n, rest⟩ := pr
        cases rest with
        | nil =>
          rw [findScenes_cons_skip hm (by rfl), hasMarkerBody]
          simp only [hm, List.isEmpty_nil, Bool.not_true, Bool.false_or]
          exact ih cs (by omega)
        | cons r rs =>
          have hsome := takeBody_isSome (l := r :: rs) (by simp)
          rw [Option.isSome_iff_exists] at hsome
          obtain ⟨p, hp⟩ := hsome
          rw [findScenes_cons_match hm hp, hasMarkerBody]
          simp only [hm]
          simp

/-- A string of whitespace contains no marker. -/
theorem countMarkers_all_space {s : List Char} (h : ∀ c ∈ s, isSpaceC c = true) :
    countMarkers s = 0 := by
  induction s with
  | nil => rfl
  | cons c cs ih =>
    rw [countMarkers,
      if_neg (by rw [markerAt_cons_ne (isSpaceC_ne_S (h c (List.mem_cons_self c cs)))]; simp),
      ih (fun x hx => h x (List.mem_cons_of_mem c hx))]

/-- `str.strip()` gives the empty string exactly on all-whitespace input. -/
theorem stripChars_eq_nil_iff {s : List Char} :
    stripChars s = [] ↔ ∀ c ∈ s, isSpaceC c = true := by
  constructor
  · intro h
    rw [stripChars, List.reverse_eq_nil_iff] at h
    have h2 : ∀ x ∈ (s.dropWhile isSpaceC).reverse, isSpaceC x = true :=
      List.dropWhile_eq_nil_iff.mp h
    cases hd : s.dropWhile isSpaceC with
    | nil => exact List.dropWhile_eq_nil_iff.mp hd
    | cons x xs =>
      exfalso
      have hx : isSpaceC x = true := by
        apply h2
        rw [hd]
        simp
      have h3 := List.head?_dropWhile_not isSpaceC s
      rw [hd] at h3
      simp only [List.head?_cons] at h3
      rw [hx] at h3
      exact absurd h3 (by simp)
  · intro h
    rw [stripChars, List.dropWhile_eq_nil_iff.mpr h]
    rfl

/-- C3 (amended): for every narrative text in which each marker occurrence
is followed by at least one character that does not itself start a marker
(`goodGaps`), `parse_story_script` produces exactly one scene per marker
occurrence, in source order, each scene's text being the segment between
its marker and the next marker (or the end of the text) with surrounding
whitespace trimmed (`specScenes`); with at least one marker present the
parser returns exactly this list.  (The claim as stated, over all texts
with N markers, fails when a marker's body is empty: the regex's mandatory
lazy body `(.+?)` then drops the marker or swallows the following one.) -/
theorem c3_scene_split (s : List Char) (hg : goodGaps s = true) :
    storyScenes s = (specScenes s).map (fun p => Scene.mk p.1 (stripChars p.2)) ∧
    (storyScenes s).length = countMarkers s ∧
    (0 < countMarkers s → parse_story_script s = .ok (storyScenes s)) := by
  have h1 : findScenes s = specScenes s := findScenes_eq_spec s.length s le_rfl hg
  have h2 : (specScenes s).length = countMarkers s := specScenes_length s.length s le_rfl
  refine ⟨by rw [storyScenes, h1], by rw [storyScenes, List.length_map, h1, h2], ?_⟩
  intro hpos
  have hstrip : ¬ ((stripChars s).isEmpty = true) := by
    intro hempty
    have hall : ∀ c ∈ s, isSpaceC c = true :=
      stripChars_eq_nil_iff.mp (List.isEmpty_iff.mp hempty)
    rw [countMarkers_all_space hall] at hpos
    exact absurd hpos (by simp)
  have hnil : ¬ ((storyScenes s).isEmpty = true) := by
    intro he
    have he' := List.isEmpty_iff.mp he
    have hlen := congrArg List.length he'
    rw [storyScenes, List.length_map, h1, h2] at hlen
    simp only [List.length_nil] at hlen
    omega
  rw [parse_story_script, if_neg hstrip, if_neg hnil]

/-- Witness for amended C3 at the spec's own example
`"Scene 1: A\nScene 2: B"`, which parses to scenes 1:`"A"` and 2:`"B"`. -/
theorem c3_scene_split_witness :
    goodGaps (("Scene 1: A\nScene 2: B").toList) = true ∧
    parse_story_script (("Scene 1: A\nScene 2: B").toList) =
      .ok (storyScenes (("Scene 1: A\nScene 2: B").toList)) ∧
    storyScenes (("Scene 1: A\nScene 2: B").toList) =
      [Scene.mk 1 (("A").toList), Scene.mk 2 (("B").toList)] :=
  ⟨by decide, (c3_scene_split _ (by decide)).2.2 (by decide), by rfl⟩

/-- C3 (counterexample): `"Scene 1:Scene 2: B"` contains two marker
occurrences, yet the parser returns a single scene whose text swallows the
second marker, refuting "N markers yield N scenes with the texts between
them". -/
theorem c3_empty_body_swallows_marker :
    countMarkers (("Scene 1:Scene 2: B").toList) = 2 ∧
    parse_story_script (("Scene 1:Scene 2: B").toList) =
      .ok [Scene.mk 1 (("Scene 2: B").toList)] :=
  ⟨by decide, by rfl⟩

/-- C9 (amended): `parse_story_script` fails with `InvalidInput` exactly on
empty or all-whitespace input; on other input it fails with `NoScenesFound`
exactly when no marker occurrence is followed by at least one character
(rather than when there are no markers at all, as claimed), and otherwise
returns the scene list. -/
theorem c9_error_classification (s : List Char) :
    (parse_story_script s = .error .invalidInput ↔ (∀ c ∈ s, isSpaceC c = true)) ∧
    ((stripChars s).isEmpty = false →
      ((parse_story_script s = .error .noScenesFound ↔ hasMarkerBody s = false) ∧
        (hasMarkerBody s = true → parse_story_script s = .ok (storyScenes s)))) := by
  have hiff := findScenes_nil_iff s.length s le_rfl
  constructor
  · constructor
    · intro h
      by_cases hstrip : (stripChars s).isEmpty = true
      · exact stripChars_eq_nil_iff.mp (List.isEmpty_iff.mp hstrip)
      · exfalso
        rw [parse_story_script, if_neg hstrip] at h
        by_cases hsc : (storyScenes s).isEmpty = true
        · rw [if_pos hsc] at h
          simp at h
        · rw [if_neg hsc] at h
          simp at h
    · intro hall
      rw [parse_story_script,
        if_pos (List.isEmpty_iff.mpr (stripChars_eq_nil_iff.mpr hall))]
  · intro hne
    have hstrip : ¬ ((stripChars s).isEmpty = true) := by rw [hne]; simp
    refine ⟨⟨?_, ?_⟩, ?_⟩
    · intro h
      rw [parse_story_script, if_neg hstrip] at h
      by_cases hsc : (storyScenes s).isEmpty = true
      · have hfs : findScenes s = [] := by
          have h0 := List.isEmpty_iff.mp hsc
          rw [storyScenes, List.map_eq_nil_iff] at h0
          exact h0
        exact hiff.mp hfs
      · rw [if_neg hsc] at h
        simp at h
    · intro hmb
      have hfs : findScenes s = [] := hiff.mpr hmb
      have hsc : (storyScenes s).isEmpty = true := by
        rw [storyScenes, hfs]
        rfl
      rw [parse_story_script, if_neg hstrip, if_pos hsc]
    · intro hmb
      have hfs : findScenes s ≠ [] := by
        intro he
        rw [hiff.mp he] at hmb
        exact absurd hmb (by simp)
      have hsc : ¬ ((storyScenes s).isEmpty = true) := by
        rw [storyScenes]
        simp only [List.isEmpty_iff, List.map_eq_nil_iff]
        exact hfs
      rw [parse_story_script, if_neg hstrip, if_neg hsc]

/-- Witness for amended C9: `"no markers here"` (no marker at all) fails
with `NoScenesFound`, and `"   "` fails with `InvalidInput`. -/
theorem c9_error_classification_witness :
    parse_story_script (("no markers here").toList) = .error .noScenesFound ∧
    parse_story_script (("   ").toList) = .error .invalidInput :=
  ⟨((c9_error_classification _).2 (by decide)).1.mpr (by decide),
    (c9_error_classification _).1.mpr (by decide)⟩

/-- C9 (counterexample): `"Scene 1:"` contains a marker, so by the claim it
is "neither empty nor marker-free" and should return a scene list, but the
parser raises `NoScenesFound`. -/
theorem c9_marker_but_no_scene :
    countMarkers (("Scene 1:").toList) = 1 ∧
    parse_story_script (("Scene 1:").toList) = .error .noScenesFound :=
  ⟨by decide, by rfl⟩

/-! ### SRT subtitle parser: `SubtitleTranslator` (subtitle_translator.py) -/

/-- Prepend a character to the first piece of a split result. -/
def consHead (c : Char) : List (List Char) → List (List Char)
  | h :: t => (c :: h) :: t
  | [] => [[c]]

/-- Python `str.split('\n')`. -/
def splitLines : List Char → List (List Char)
  | [] => [[]]
  | c :: cs =>
    if c = '\n' then [] :: splitLines cs
    else consHead c (splitLines cs)

theorem splitLines_ne_nil (l : List Char) : splitLines l ≠ [] := by
  cases l with
  | nil => simp [splitLines]
  | cons c cs =>
    rw [splitLines]
    by_cases hc : c = '\n'
    · rw [if_pos hc]
      simp
    · rw [if_neg hc]
      cases splitLines cs with
      | nil => simp [consHead]
      | cons h t => simp [consHead]

theorem splitLines_no_nl {l : List Char} (h : ∀ c ∈ l, c ≠ '\n') :
    splitLines l = [l] := by
  induction l with
  | nil => rfl
  | cons c cs ih =>
    rw [splitLines, if_neg (h c (List.mem_cons_self c cs)),
      ih (fun x hx => h x (List.mem_cons_of_mem c hx))]
    rfl

theorem splitLines_append_nl {x y : List Char} (h : ∀ c ∈ x, c ≠ '\n') :
    splitLines (x ++ '\n' :: y) = x :: splitLines y := by
  induction x with
  | nil => rw [List.nil_append, splitLines, if_pos rfl]
  | cons c x' ih =>
    rw [List.cons_append, splitLines, if_neg (h c (List.mem_cons_self c x')),
      ih (fun z hz => h z (List.mem_cons_of_mem c hz))]
    rfl

/-- No two consecutive newline characters. -/
def noDoubleNl : List Char → Bool
  | [] => true
  | c :: cs => (!(decide (c = '\n') && decide (cs.head? = some '\n'))) && noDoubleNl cs

theorem noDoubleNl_of_no_nl {u : List Char} (hu : ∀ c ∈ u, c ≠ '\n') :
    noDoubleNl u = true := by
  induction u with
  | nil => rfl
  | cons c cs ih =>
    rw [noDoubleNl, Bool.and_eq_true]
    refine ⟨?_, ih (fun x hx => hu x (List.mem_cons_of_mem c hx))⟩
    simp [hu c (List.mem_cons_self c cs)]

theorem noDoubleNl_glue {u v : List Char} (hu : ∀ c ∈ u, c ≠ '\n')
    (hv : noDoubleNl v = true) (hvh : v.head? ≠ some '\n') :
    noDoubleNl (u ++ '\n' :: v) = true := by
  induction u with
  | nil =>
    rw [List.nil_append, noDoubleNl, Bool.and_eq_true]
    exact ⟨by simp [hvh], hv⟩
  | cons c u' ih =>
    rw [List.cons_append, noDoubleNl, Bool.and_eq_true]
    refine ⟨by simp [hu c (List.mem_cons_self c u')],
      ih (fun x hx => hu x (List.mem_cons_of_mem c hx))⟩

theorem noDoubleNl_cons {c : Char} {cs : List Char} (h : noDoubleNl (c :: cs) = true) :
    noDoubleNl cs = true := by
  rw [noDoubleNl, Bool.and_eq_true] at h
  exact h.2

/-- `re.split(r'\n\n+')`: at a double newline, emit a block and consume the
whole maximal newline run; fueled for structural recursion. -/
def splitBlocksF : ℕ → List Char → List (List Char)
  | 0, l => [l]
  | _ + 1, [] => [[]]
  | fuel + 1, c :: cs =>
    if c = '\n' ∧ cs.head? = some '\n' then
      [] :: splitBlocksF fuel (cs.dropWhile (fun x => x == '\n'))
    else
      consHead c (splitBlocksF fuel cs)

theorem length_dropWhile_le' (p : Char → Bool) (l : List Char) :
    (l.dropWhile p).length ≤ l.length := by
  induction l with
  | nil => simp
  | cons c cs ih =>
    rw [List.dropWhile_cons]
    by_cases hp : p c = true
    · rw [if_pos hp]
      simp only [List.length_cons]
      omega
    · rw [if_neg hp]

theorem splitBlocksF_fuel : ∀ (f1 f2 : ℕ) (l : List Char),
    l.length ≤ f1 → l.length ≤ f2 → splitBlocksF f1 l = splitBlocksF f2 l := by
  intro f1
  induction f1 with
  | zero =>
    intro f2 l h1 _
    have h0 : l = [] := List.length_eq_zero.mp (Nat.le_zero.mp h1)
    subst h0
    cases f2 <;> rfl
  | succ f ih =>
    intro f2 l h1 h2
    cases l with
    | nil => cases f2 <;> rfl
    | cons c cs =>
      cases f2 with
      | zero => simp at h2
      | succ f2' =>
        simp only [List.length_cons] at h1 h2
        simp only [splitBlocksF]
        by_cases hc : c = '\n' ∧ cs.head? = some '\n'
        · rw [if_pos hc, if_pos hc]
          have hd := length_dropWhile_le' (fun x => x == '\n') cs
          rw [ih f2' (cs.dropWhile (fun x => x == '\n')) (by omega) (by omega)]
        · rw [if_neg hc, if_neg hc, ih f2' cs (by omega) (by omega)]

/-- `re.split(r'\n\n+', l)`. -/
def splitBlocks (l : List Char) : List (List Char) := splitBlocksF (l.length + 1) l

theorem splitBlocks_nil : splitBlocks [] = [[]] := rfl

theorem splitBlocks_cons_ne {c : Char} {cs : List Char}
    (h : ¬ (c = '\n' ∧ cs.head? = some '\n')) :
    splitBlocks (c :: cs) = consHead c (splitBlocks cs) := by
  rw [splitBlocks, splitBlocks, List.length_cons]
  simp only [splitBlocksF, if_neg h]

theorem splitBlocks_cons_sep {c : Char} {cs : List Char}
    (h : c = '\n' ∧ cs.head? = some '\n') :
    splitBlocks (c :: cs) = [] :: splitBlocks (cs.dropWhile (fun x => x == '\n')) := by
  rw [splitBlocks, splitBlocks, List.length_cons]
  simp only [splitBlocksF, if_pos h]
  have hd := length_dropWhile_le' (fun x => x == '\n') cs
  congr 1
  exact splitBlocksF_fuel (cs.length + 1) ((cs.dropWhile (fun x => x == '\n')).length + 1)
    (cs.dropWhile (fun x => x == '\n')) (by omega) (by omega)

/-- A text without consecutive newlines is a single block. -/
theorem splitBlocks_single {l : List Char} (h : noDoubleNl l = true) :
    splitBlocks l = [l] := by
  induction l with
  | nil => rfl
  | cons c cs ih =>
    have hc : ¬ (c = '\n' ∧ cs.head? = some '\n') := by
      rw [noDoubleNl, Bool.and_eq_true] at h
      have h1 := h.1
      intro hand
      rw [hand.1, hand.2] at h1
      simp at h1
    rw [splitBlocks_cons_ne hc, ih (noDoubleNl_cons h)]
    rfl

/-- Splitting at an explicit `\n\n` separator between a clean block and a
rest that does not begin with a newline. -/
theorem splitBlocks_sep : ∀ (x y : List Char), noDoubleNl x = true →
    x.getLast? ≠ some '\n' → y.head? ≠ some '\n' →
    splitBlocks (x ++ '\n' :: '\n' :: y) = x :: splitBlocks y := by
  intro x
  induction x with
  | nil =>
    intro y _ _ hy
    rw [List.nil_append]
    rw [splitBlocks_cons_sep (⟨rfl, by simp⟩ : '\n' = '\n' ∧ ('\n' :: y).head? = some '\n')]
    have hdrop : ('\n' :: y).dropWhile (fun x => x == '\n') = y := by
      rw [List.dropWhile_cons, if_pos (by simp)]
      cases y with
      | nil => rfl
      | cons d ys =>
        simp only [List.head?_cons] at hy
        have hd : d ≠ '\n' := fun h => hy (by rw [h])
        rw [List.dropWhile_cons, if_neg (by simp [hd])]
    rw [hdrop]
  | cons c x' ih =>
    intro y hx hlast hy
    have hcase : ¬ (c = '\n' ∧ (x' ++ '\n' :: '\n' :: y).head? = some '\n') := by
      intro hand
      cases hx' : x' with
      | nil =>
        subst hx'
        rw [List.getLast?_singleton] at hlast
        exact hlast (by rw [hand.1])
      | cons a x'' =>
        rw [noDoubleNl, Bool.and_eq_true] at hx
        have h1 := hx.1
        rw [hand.1] at h1
        rw [hx'] at h1
        have ha : a = '\n' := by
          have h2 := hand.2
          rw [hx'] at h2
          simpa using h2
        rw [ha] at h1
        simp at h1
    rw [List.cons_append, splitBlocks_cons_ne hcase]
    have hlast' : x'.getLast? ≠ some '\n' := by
      cases hx' : x' with
      | nil => simp
      | cons a x'' =>
        rw [← hx']
        intro hcontra
        apply hlast
        rw [← hcontra]
        rw [hx']
        simp
    rw [ih y (noDoubleNl_cons hx) hlast' hy]
    rfl

theorem dropWhile_eq_self_of {p : Char → Bool} {l : List Char}
    (h : ∀ c ∈ l, p c = false) : l.dropWhile p = l := by
  cases l with
  | nil => rfl
  | cons c cs =>
    rw [List.dropWhile_cons, if_neg (by rw [h c (List.mem_cons_self c cs)]; simp)]

/-- `strip()` is the identity on strings with no whitespace at all. -/
theorem stripChars_of_no_space {l : List Char} (h : ∀ c ∈ l, isSpaceC c = false) :
    stripChars l = l := by
  rw [stripChars, dropWhile_eq_self_of h,
    dropWhile_eq_self_of (fun c hc => h c (List.mem_reverse.mp hc)), List.reverse_reverse]

theorem stripChars_length_le (l : List Char) : (stripChars l).length ≤ l.length := by
  rw [stripChars]
  have h1 := length_dropWhile_le' isSpaceC l
  have h2 := length_dropWhile_le' isSpaceC (l.dropWhile isSpaceC).reverse
  simp only [List.length_reverse] at h2 ⊢
  omega

theorem stripChars_head_not_space {c : Char} {m : List Char}
    (h : stripChars (c :: m) = c :: m) : isSpaceC c = false := by
  by_contra hs
  rw [Bool.not_eq_false] at hs
  have h1 : stripChars (c :: m) = stripChars m := by
    rw [stripChars, stripChars, List.dropWhile_cons, if_pos hs]
  have h2 := stripChars_length_le m
  rw [h1] at h
  have h3 := congrArg List.length h
  simp only [List.length_cons] at h3
  omega

theorem stripChars_last_not_space {m : List Char} {d : Char}
    (h : stripChars (m ++ [d]) = m ++ [d]) : isSpaceC d = false := by
  by_contra hs
  rw [Bool.not_eq_false] at hs
  have hlen := congrArg List.length h
  rw [stripChars] at hlen
  rcases hcase : (m ++ [d]).dropWhile isSpaceC with _ | ⟨x, xs⟩
  · rw [hcase] at hlen
    simp at hlen
  · by_cases hm : (m.dropWhile isSpaceC).isEmpty = true
    · rw [List.dropWhile_append, if_pos hm, List.dropWhile_cons, if_pos hs] at hcase
      simp at hcase
    · have hm' : (m ++ [d]).dropWhile isSpaceC = m.dropWhile isSpaceC ++ [d] := by
        rw [List.dropWhile_append, if_neg hm]
      set m' := m.dropWhile isSpaceC with hm'def
      rw [hm'] at hlen
      have hrev : (m' ++ [d]).reverse = d :: m'.reverse := by simp
      rw [hrev, List.dropWhile_cons, if_pos hs] at hlen
      have h4 := length_dropWhile_le' isSpaceC m'.reverse
      have h5 := length_dropWhile_le' isSpaceC (m ++ [d])
      rw [hm'] at h5
      simp only [List.length_reverse, List.length_append, List.length_cons,
        List.length_nil] at hlen h4 h5
      omega

/-- `strip()` removes exactly a trailing run of whitespace after a string
that strip leaves unchanged. -/
theorem stripChars_append_ws {x s : List Char} (hx : stripChars x = x) (hxne : x ≠ [])
    (hs : ∀ c ∈ s, isSpaceC c = true) : stripChars (x ++ s) = x := by
  obtain ⟨c, m, rfl⟩ : ∃ c m, x = c :: m := by
    cases x with
    | nil => exact absurd rfl hxne
    | cons c m => exact ⟨c, m, rfl⟩
  have hc : isSpaceC c = false := stripChars_head_not_space hx
  have hxd : ∃ m' d, c :: m = m' ++ [d] ∧ isSpaceC d = false := by
    refine ⟨(c :: m).dropLast, (c :: m).getLast (by simp), ?_, ?_⟩
    · rw [List.dropLast_append_getLast]
    · apply stripChars_last_not_space (m := (c :: m).dropLast)
      rw [List.dropLast_append_getLast]
      exact hx
  obtain ⟨m', d, hmd, hd⟩ := hxd
  rw [stripChars]
  have step1 : (c :: m ++ s).dropWhile isSpaceC = c :: m ++ s := by
    rw [List.cons_append, List.dropWhile_cons, if_neg (by rw [hc]; simp)]
  rw [step1]
  have step2 : (c :: m ++ s).reverse = s.reverse ++ (c :: m).reverse := by simp
  rw [step2]
  have step3 : (s.reverse ++ (c :: m).reverse).dropWhile isSpaceC
      = ((c :: m).reverse).dropWhile isSpaceC := by
    rw [List.dropWhile_append,
      if_pos (by
        rw [List.isEmpty_iff, List.dropWhile_eq_nil_iff]
        exact fun x hxm => hs x (List.mem_reverse.mp hxm))]
  rw [step3]
  have step4 : ((c :: m).reverse).dropWhile isSpaceC = (c :: m).reverse := by
    rw [hmd]
    have : (m' ++ [d]).reverse = d :: m'.reverse := by simp
    rw [this, List.dropWhile_cons, if_neg (by rw [hd]; simp)]
  rw [step4, List.reverse_reverse]

/-- The fixed-width timestamp pattern `\d{2}:\d{2}:\d{2},\d{3}` over
exactly twelve characters. -/
def tsShape (p : List Char) : Bool :=
  decide (p.length = 12) &&
  isDigitC (p.getD 0 'x') && isDigitC (p.getD 1 'x') && decide (p.getD 2 'x' = ':') &&
  isDigitC (p.getD 3 'x') && isDigitC (p.getD 4 'x') && decide (p.getD 5 'x' = ':') &&
  isDigitC (p.getD 6 'x') && isDigitC (p.getD 7 'x') && decide (p.getD 8 'x' = ',') &&
  isDigitC (p.getD 9 'x') && isDigitC (p.getD 10 'x') && isDigitC (p.getD 11 'x')

/-- Consume one timestamp at the head of the input. -/
def matchTimestamp (l : List Char) : Option (List Char) :=
  if tsShape (l.take 12) then some (l.drop 12) else none

/-- A string that is exactly one valid timestamp. -/
def timestampOk (l : List Char) : Bool :=
  match matchTimestamp l with
  | some rem => rem.isEmpty
  | none => false

/-- The literal `-->` after the first timestamp and optional whitespace. -/
def arrowAfterTs (r : List Char) : Option (List Char) :=
  (matchCh '-' (r.dropWhile isSpaceC)).bind (fun a =>
    (matchCh '-' a).bind (fun b => matchCh '>' b))

/-- The timing-line validation regex
`^\d{2}:\d{2}:\d{2},\d{3}\s*-->\s*\d{2}:\d{2}:\d{2},\d{3}$`
(subtitle_translator.py 101). -/
def timingRegexOk (t : List Char) : Bool :=
  match (matchTimestamp t).bind (fun r =>
      (arrowAfterTs r).bind (fun r2 => matchTimestamp (r2.dropWhile isSpaceC))) with
  | some rem => rem.isEmpty
  | none => false

/-- Does `' --> '` start here? (the exact separator `str.split` looks for). -/
def isArrowStart (l : List Char) : Bool :=
  decide (l.take 5 = [' ', '-', '-', '>', ' '])

/-- Does the timing line contain the literal substring `' --> '`? -/
def hasArrowSep : List Char → Bool
  | [] => false
  | c :: cs => isArrowStart (c :: cs) || hasArrowSep cs

/-- Python `str.split(' --> ')`, fueled for structural recursion. -/
def splitArrowF : ℕ → List Char → List (List Char)
  | 0, l => [l]
  | _ + 1, [] => [[]]
  | fuel + 1, c :: cs =>
    if isArrowStart (c :: cs) then [] :: splitArrowF fuel ((c :: cs).drop 5)
    else consHead c (splitArrowF fuel cs)

theorem isArrowStart_length {l : List Char} (h : isArrowStart l = true) :
    5 ≤ l.length := by
  rw [isArrowStart, decide_eq_true_iff] at h
  have := congrArg List.length h
  rw [List.length_take] at this
  simp only [List.length_cons, List.length_nil] at this
  omega

theorem splitArrowF_fuel : ∀ (f1 f2 : ℕ) (l : List Char),
    l.length ≤ f1 → l.length ≤ f2 → splitArrowF f1 l = splitArrowF f2 l := by
  intro f1
  induction f1 with
  | zero =>
    intro f2 l h1 _
    have h0 : l = [] := List.length_eq_zero.mp (Nat.le_zero.mp h1)
    subst h0
    cases f2 <;> rfl
  | succ f ih =>
    intro f2 l h1 h2
    cases l with
    | nil => cases f2 <;> rfl
    | cons c cs =>
      cases f2 with
      | zero => simp at h2
      | succ f2' =>
        simp only [List.length_cons] at h1 h2
        simp only [splitArrowF]
        by_cases hc : isArrowStart (c :: cs) = true
        · rw [if_pos hc, if_pos hc]
          have h5 := isArrowStart_length hc
          simp only [List.length_cons] at h5
          have hd : ((c :: cs).drop 5).length = cs.length + 1 - 5 := by
            rw [List.length_drop]
            simp
          rw [ih f2' ((c :: cs).drop 5) (by omega) (by omega)]
        · rw [if_neg hc, if_neg hc, ih f2' cs (by omega) (by omega)]

/-- Python `str.split(' --> ')`. -/
def splitArrow (l : List Char) : List (List Char) := splitArrowF (l.length + 1) l

theorem splitArrow_cons_ne {c : Char} {cs : List Char}
    (h : isArrowStart (c :: cs) = false) :
    splitArrow (c :: cs) = consHead c (splitArrow cs) := by
  rw [splitArrow, splitArrow, List.length_cons]
  simp only [splitArrowF, if_neg (by rw [h]; simp : ¬ isArrowStart (c :: cs) = true)]

theorem splitArrow_cons_sep {c : Char} {cs : List Char}
    (h : isArrowStart (c :: cs) = true) :
    splitArrow (c :: cs) = [] :: splitArrow ((c :: cs).drop 5) := by
  rw [splitArrow, splitArrow, List.length_cons]
  simp only [splitArrowF, if_pos h]
  have h5 := isArrowStart_length h
  simp only [List.length_cons] at h5
  have hd : ((c :: cs).drop 5).length = cs.length + 1 - 5 := by
    rw [List.length_drop]
    simp
  congr 1
  exact splitArrowF_fuel (cs.length + 1) (((c :: cs).drop 5).length + 1) ((c :: cs).drop 5)
    (by omega) (by omega)

theorem splitArrow_no_sep {l : List Char} (h : hasArrowSep l = false) :
    splitArrow l = [l] := by
  induction l with
  | nil => rfl
  | cons c cs ih =>
    rw [hasArrowSep, Bool.or_eq_false_iff] at h
    rw [splitArrow_cons_ne h.1, ih h.2]
    rfl

/-- Python `int(str)` (ASCII: optional surrounding whitespace already
stripped, optional single sign, then decimal digits; digit-group
underscores are not modelled). -/
def parsePyIntCore : List Char → Option ℤ
  | [] => none
  | c :: ds =>
    if c = '-' then
      if ds ≠ [] ∧ ds.all isDigitC then some (-(digitsToNat ds : ℤ)) else none
    else if c = '+' then
      if ds ≠ [] ∧ ds.all isDigitC then some ((digitsToNat ds : ℤ)) else none
    else
      if (c :: ds).all isDigitC then some ((digitsToNat (c :: ds) : ℤ)) else none

/-- Python `int(lines[0])`. -/
def parsePyInt (l : List Char) : Option ℤ := parsePyIntCore (stripChars l)

/-- The decimal digit character of a value below ten. -/
def digitChar10 (k : ℕ) : Char :=
  if k = 0 then '0' else if k = 1 then '1' else if k = 2 then '2'
  else if k = 3 then '3' else if k = 4 then '4' else if k = 5 then '5'
  else if k = 6 then '6' else if k = 7 then '7' else if k = 8 then '8' else '9'

/-- Decimal digits of a natural number, fueled. -/
def natCharsF : ℕ → ℕ → List Char
  | 0, _ => []
  | fuel + 1, n =>
    if n < 10 then [digitChar10 n]
    else natCharsF fuel (n / 10) ++ [digitChar10 (n % 10)]

/-- Decimal digits of a natural number (Python `str` of a nonnegative int). -/
def natChars (n : ℕ) : List Char := natCharsF (n + 1) n

/-- Python `f"{i}"` for an int. -/
def intChars (i : ℤ) : List Char :=
  if i < 0 then '-' :: natChars i.natAbs else natChars i.toNat

theorem natCharsF_fuel : ∀ (f1 f2 n : ℕ), n < f1 → n < f2 →
    natCharsF f1 n = natCharsF f2 n := by
  intro f1
  induction f1 with
  | zero => intro f2 n h1; omega
  | succ f ih =>
    intro f2 n h1 h2
    cases f2 with
    | zero => omega
    | succ f2' =>
      simp only [natCharsF]
      by_cases hn : n < 10
      · rw [if_pos hn, if_pos hn]
      · rw [if_neg hn, if_neg hn, ih f2' (n / 10) (by omega) (by omega)]

theorem natChars_lt_10 {n : ℕ} (h : n < 10) : natChars n = [digitChar10 n] := by
  rw [natChars, natCharsF, if_pos h]

theorem natChars_ge_10 {n : ℕ} (h : ¬ n < 10) :
    natChars n = natChars (n / 10) ++ [digitChar10 (n % 10)] := by
  rw [natChars, natChars, natCharsF, if_neg h]
  congr 1
  exact natCharsF_fuel n (n / 10 + 1) (n / 10) (by omega) (by omega)

theorem isDigitC_digitChar10 (k : ℕ) : isDigitC (digitChar10 k) = true := by
  rw [digitChar10]
  split_ifs <;> decide

theorem digitVal_digitChar10 {k : ℕ} (h : k < 10) : digitVal (digitChar10 k) = k := by
  interval_cases k <;> decide

theorem digitsToNat_append_one (xs : List Char) (c : Char) :
    digitsToNat (xs ++ [c]) = 10 * digitsToNat xs + digitVal c := by
  rw [digitsToNat, digitsToNat, List.foldl_append]
  rfl

theorem natChars_spec : ∀ (k n : ℕ), n < k →
    natChars n ≠ [] ∧ (∀ c ∈ natChars n, isDigitC c = true) ∧
      digitsToNat (natChars n) = n := by
  intro k
  induction k with
  | zero => intro n h; omega
  | succ k ih =>
    intro n h
    by_cases hn : n < 10
    · rw [natChars_lt_10 hn]
      refine ⟨by simp, ?_, ?_⟩
      · intro c hc
        rw [List.mem_singleton] at hc
        subst hc
        exact isDigitC_digitChar10 n
      · rw [digitsToNat]
        simp only [List.foldl_cons, List.foldl_nil]
        rw [digitVal_digitChar10 hn]
        omega
    · rw [natChars_ge_10 hn]
      obtain ⟨ih1, ih2, ih3⟩ := ih (n / 10) (by omega)
      refine ⟨by simp, ?_, ?_⟩
      · intro c hc
        rw [List.mem_append] at hc
        rcases hc with hc | hc
        · exact ih2 c hc
        · rw [List.mem_singleton] at hc
          subst hc
          exact isDigitC_digitChar10 (n % 10)
      · rw [digitsToNat_append_one, ih3, digitVal_digitChar10 (by omega)]
        omega

theorem isDigitC_ne_minus {c : Char} (h : isDigitC c = true) : c ≠ '-' := by
  intro he
  subst he
  exact absurd h (by decide)

theorem isDigitC_ne_plus {c : Char} (h : isDigitC c = true) : c ≠ '+' := by
  intro he
  subst he
  exact absurd h (by decide)

/-- Round trip: parsing the printed digits of a natural number. -/
theorem parsePyInt_natChars (n : ℕ) : parsePyInt (natChars n) = some (n : ℤ) := by
  obtain ⟨h1, h2, h3⟩ := natChars_spec (n + 1) n (by omega)
  rw [parsePyInt, stripChars_of_no_space (fun c hc => isDigitC_ne_space (h2 c hc))]
  obtain ⟨c, ds, hcd⟩ : ∃ c ds, natChars n = c :: ds := by
    cases hx : natChars n with
    | nil => exact absurd hx h1
    | cons c ds => exact ⟨c, ds, rfl⟩
  rw [hcd]
  have hc : isDigitC c = true := h2 c (by rw [hcd]; exact List.mem_cons_self c ds)
  rw [parsePyIntCore, if_neg (isDigitC_ne_minus hc), if_neg (isDigitC_ne_plus hc),
    if_pos (by rw [List.all_eq_true]; intro x hx; exact h2 x (by rw [hcd]; exact hx))]
  rw [← hcd, h3]

/-- Python `' '.join(...)`. -/
def joinSpace : List (List Char) → List Char
  | [] => []
  | l :: ls => if ls.isEmpty then l else l ++ ' ' :: joinSpace ls

/-- A parsed SRT entry (`SubtitleEntry` dataclass). -/
structure SubtitleEntry where
  index : ℤ
  start_time : List Char
  end_time : List Char
  text : List Char
  deriving DecidableEq

/-- The `ValueError`s of `parse_srt` (subtitle_translator.py 68-117).
`invalidTimingInBlock` is the error raised at line 102 and
`rawValueError` stands for the `ValueError`s of `int()` and of tuple
unpacking; both are caught by the `except` clause at line 114 and
re-raised as `invalidFormatInBlock` with the block text. -/
inductive SrtError
  | invalidContent
  | missingNumbers
  | invalidTimingInBlock (index : ℤ)
  | invalidFormatInBlock (block : List Char)
  | rawValueError
  deriving DecidableEq

/-- The body of the `try` at lines 96-112: parse the index, validate the
timing line, split it on `' --> '`, and build the entry. -/
def parseBlockTry (lines : List (List Char)) : Except SrtError SubtitleEntry :=
  match parsePyInt (lines.getD 0 []) with
  | none => .error .rawValueError
  | some idx =>
    if timingRegexOk (lines.getD 1 []) = false then
      .error (.invalidTimingInBlock idx)
    else
      match splitArrow (lines.getD 1 []) with
      | [s, e] =>
        .ok ⟨idx, stripChars s, stripChars e, stripChars (joinSpace (lines.drop 2))⟩
      | _ => .error .rawValueError

/-- One iteration of the block loop (lines 91-115): blocks with fewer than
three lines are skipped; any error inside the `try` is replaced by the
generic `invalidFormatInBlock` error naming the block text. -/
def parseBlock (block : List Char) : Except SrtError (Option SubtitleEntry) :=
  if (splitLines (stripChars block)).length < 3 then .ok none
  else
    match parseBlockTry (splitLines (stripChars block)) with
    | .ok e => .ok (some e)
    | .error _ => .error (.invalidFormatInBlock block)

/-- The whole loop, accumulating entries and aborting on the first error. -/
def collectEntries : List (List Char) → Except SrtError (List SubtitleEntry)
  | [] => .ok []
  | b :: bs =>
    match parseBlock b with
    | .error e => .error e
    | .ok none => collectEntries bs
    | .ok (some entry) =>
      match collectEntries bs with
      | .error e => .error e
      | .ok rest => .ok (entry :: rest)

/-- The structural check at line 88: the block's first raw line, stripped,
matches `^\d+\s*$`. -/
def firstLineIsNumber (b : List Char) : Bool :=
  !(stripChars ((splitLines b).getD 0 [])).isEmpty &&
    (stripChars ((splitLines b).getD 0 [])).all isDigitC

/-- `SubtitleTranslator.parse_srt` (subtitle_translator.py 68-117). -/
def parse_srt (content : List Char) : Except SrtError (List SubtitleEntry) :=
  if (stripChars content).isEmpty then .error .invalidContent
  else if (splitBlocks (stripChars content)).any firstLineIsNumber = false then
    .error .missingNumbers
  else collectEntries (splitBlocks (stripChars content))

/-- The characters `save_srt` writes for one entry (lines 250-253):
`f"{index}\n"`, `f"{start} --> {end}\n"`, `f"{text}\n\n"`. -/
def entryChars (e : SubtitleEntry) : List Char :=
  intChars e.index ++ '\n' ::
    (e.start_time ++ ' ' :: '-' :: '-' :: '>' :: ' ' :: e.end_time) ++ '\n' ::
      (e.text ++ ['\n', '\n'])

/-- The full file content `SubtitleTranslator.save_srt` writes
(subtitle_translator.py 233-255; the path handling is not modelled). -/
def save_srt_content : List SubtitleEntry → List Char
  | [] => []
  | e :: es => entryChars e ++ save_srt_content es

example : parse_srt (("1\n00:00:01,000 --> 00:00:04,000\nHello.\n\n2\n00:00:04,500 --> 00:00:08,000\nBye.").toList) =
    .ok [⟨1, ("00:00:01,000").toList, ("00:00:04,000").toList, ("Hello.").toList⟩,
      ⟨2, ("00:00:04,500").toList, ("00:00:08,000").toList, ("Bye.").toList⟩] := by rfl

example : parse_srt (("1\n00:00:01 --> 00:00:02\nText").toList) =
    .error (.invalidFormatInBlock (("1\n00:00:01 --> 00:00:02\nText").toList)) := by rfl

example : parse_srt (("1\n00:00:01,000  -->  00:00:02,000\nText").toList) =
    .ok [⟨1, ("00:00:01,000").toList, ("00:00:02,000").toList, ("Text").toList⟩] := by rfl

example : parse_srt (("1\n00:00:01,000-->00:00:02,000\nText").toList) =
    .error (.invalidFormatInBlock (("1\n00:00:01,000-->00:00:02,000\nText").toList)) := by rfl

example : parse_srt (("This is not a valid SRT file").toList) = .error .missingNumbers := by rfl

example : save_srt_content [⟨1, ("00:00:01,000").toList, ("00:00:02,000").toList, ("A\nB").toList⟩] =
    ("1\n00:00:01,000 --> 00:00:02,000\nA\nB\n\n").toList := by rfl

example : parse_srt (save_srt_content
      [⟨1, ("00:00:01,000").toList, ("00:00:02,000").toList, ("A\nB").toList⟩]) =
    .ok [⟨1, ("00:00:01,000").toList, ("00:00:02,000").toList, ("A B").toList⟩] := by rfl

/-- `strip()` is the identity when the first and last characters are not
whitespace. -/
theorem stripChars_eq_self_of_ends {c d : Char} {m : List Char}
    (hc : isSpaceC c = false) (hd : isSpaceC d = false) :
    stripChars (c :: (m ++ [d])) = c :: (m ++ [d]) := by
  rw [stripChars, List.dropWhile_cons, if_neg (by rw [hc]; simp)]
  have step2 : (c :: (m ++ [d])).reverse = d :: (m.reverse ++ [c]) := by simp
  rw [step2, List.dropWhile_cons, if_neg (by rw [hd]; simp), ← step2,
    List.reverse_reverse]

/-- C6: on the spec's malformed-timing input the parser rejects the block,
but with the generic `Invalid SRT format in block: ...` error carrying the
block text — the deliberately raised `Invalid timing format in block 1`
error is caught by the block's own `except` clause and replaced, so no
error naming the index ever escapes. -/
theorem c6_timing_error_swallowed :
    parse_srt (("1\n00:00:01 --> 00:00:02\nText").toList) =
      .error (.invalidFormatInBlock (("1\n00:00:01 --> 00:00:02\nText").toList)) := by
  rfl

/-- C10 (counterexample): a timing line whose separator has two spaces on
each side still contains the literal `' --> '`, so `split` succeeds and the
entry is returned — refuting the claim that every separator other than
exactly one space per side raises an error. -/
theorem c10_double_space_succeeds :
    parse_srt (("1\n00:00:01,000  -->  00:00:02,000\nText").toList) =
      .ok [⟨1, ("00:00:01,000").toList, ("00:00:02,000").toList, ("Text").toList⟩] := by
  rfl

/-- C10 (amended): a block whose timing line passes the validation regex
but does not contain the literal substring `' --> '` (for example `-->`
with no spaces, or with tabs) makes `parse_srt` fail with the generic
malformed-block error: the `split(' --> ')` result cannot be unpacked into
two values.  (Separators that do contain `' --> '`, such as double spaces,
succeed instead — see the counterexample.) -/
theorem c10_missing_arrow_sep_errors (t : List Char)
    (hok : timingRegexOk t = true) (hnl : ∀ c ∈ t, c ≠ '\n')
    (hsep : hasArrowSep t = false) :
    parse_srt ('1' :: '\n' :: (t ++ '\n' :: ['T', 'e', 'x', 't'])) =
      .error (.invalidFormatInBlock ('1' :: '\n' :: (t ++ '\n' :: ['T', 'e', 'x', 't']))) := by
  have ht_ne : t ≠ [] := by
    intro he
    subst he
    exact absurd hok (by decide)
  have hhead : (t ++ '\n' :: ['T', 'e', 'x', 't']).head? ≠ some '\n' := by
    cases t with
    | nil => exact absurd rfl ht_ne
    | cons a b =>
      simp only [List.cons_append, List.head?_cons]
      intro hcontra
      exact hnl a (List.mem_cons_self a b) (by injection hcontra)
  have hBshape : '1' :: '\n' :: (t ++ '\n' :: ['T', 'e', 'x', 't'])
      = '1' :: (('\n' :: t ++ ['\n', 'T', 'e', 'x']) ++ ['t']) := by simp
  have hstrip : stripChars ('1' :: '\n' :: (t ++ '\n' :: ['T', 'e', 'x', 't']))
      = '1' :: '\n' :: (t ++ '\n' :: ['T', 'e', 'x', 't']) := by
    rw [hBshape]
    exact stripChars_eq_self_of_ends (by decide) (by decide)
  have hnd : noDoubleNl ('1' :: '\n' :: (t ++ '\n' :: ['T', 'e', 'x', 't'])) = true := by
    have hv : noDoubleNl (t ++ '\n' :: ['T', 'e', 'x', 't']) = true :=
      noDoubleNl_glue hnl (by decide) (by decide)
    have hsplit : ('1' :: '\n' :: (t ++ '\n' :: ['T', 'e', 'x', 't']))
        = ['1'] ++ '\n' :: (t ++ '\n' :: ['T', 'e', 'x', 't']) := rfl
    rw [hsplit]
    apply noDoubleNl_glue ?h1 hv hhead
    intro c hc
    rw [List.mem_singleton] at hc
    subst hc
    decide
  have hlines : splitLines ('1' :: '\n' :: (t ++ '\n' :: ['T', 'e', 'x', 't']))
      = [['1'], t, ['T', 'e', 'x', 't']] := by
    have h1 : ('1' :: '\n' :: (t ++ '\n' :: ['T', 'e', 'x', 't']))
        = ['1'] ++ '\n' :: (t ++ '\n' :: ['T', 'e', 'x', 't']) := rfl
    rw [h1,
      splitLines_append_nl (by intro c hc; rw [List.mem_singleton] at hc; subst hc; decide),
      splitLines_append_nl hnl,
      splitLines_no_nl (by
        intro c hc
        simp only [List.mem_cons, List.not_mem_nil, or_false] at hc
        rcases hc with rfl | rfl | rfl | rfl <;> decide)]
  have hfirst : firstLineIsNumber ('1' :: '\n' :: (t ++ '\n' :: ['T', 'e', 'x', 't'])) = true := by
    rw [firstLineIsNumber, hlines]
    rfl
  have hpb : parseBlock ('1' :: '\n' :: (t ++ '\n' :: ['T', 'e', 'x', 't']))
      = .error (.invalidFormatInBlock ('1' :: '\n' :: (t ++ '\n' :: ['T', 'e', 'x', 't']))) := by
    rw [parseBlock, hstrip, hlines]
    rw [if_neg (by simp)]
    rw [parseBlockTry]
    rw [show ([['1'], t, ['T', 'e', 'x', 't']] : List (List Char)).getD 1 [] = t from rfl]
    rw [hok, splitArrow_no_sep hsep]
    rfl
  rw [parse_srt, hstrip]
  rw [if_neg (by simp)]
  rw [splitBlocks_single hnd]
  have hany : ([('1' :: '\n' :: (t ++ '\n' :: ['T', 'e', 'x', 't']))].any firstLineIsNumber) = true := by
    rw [List.any_cons, hfirst]
    rfl
  rw [if_neg (by rw [hany]; simp)]
  simp only [collectEntries]
  rw [hpb]

/-- Witness for amended C10: the separator `-->` with no spaces passes the
validation regex but fails the split, so the block errors. -/
theorem c10_missing_arrow_sep_errors_witness :
    timingRegexOk (("00:00:01,000-->00:00:02,000").toList) = true ∧
    parse_srt ('1' :: '\n' :: ((("00:00:01,000-->00:00:02,000").toList) ++ '\n' :: ['T', 'e', 'x', 't'])) =
      .error (.invalidFormatInBlock
        ('1' :: '\n' :: ((("00:00:01,000-->00:00:02,000").toList) ++ '\n' :: ['T', 'e', 'x', 't']))) :=
  ⟨by decide, c10_missing_arrow_sep_errors _ (by decide) (by decide) (by decide)⟩

/- The C5 round trip: save_srt followed by parse_srt. -/

/-- The timing line `save_srt` writes for one entry. -/
def timingChars (e : SubtitleEntry) : List Char :=
  e.start_time ++ ' ' :: '-' :: '-' :: '>' :: ' ' :: e.end_time

/-- One block of the saved file, without the trailing blank line. -/
def bodyChars (e : SubtitleEntry) : List Char :=
  intChars e.index ++ '\n' :: (timingChars e ++ '\n' :: e.text)

/-- Entries that serialize faithfully: nonnegative index, well-formed
timestamps, and a nonempty, single-line, already-stripped text. -/
def goodEntry (e : SubtitleEntry) : Bool :=
  decide (0 ≤ e.index) && timestampOk e.start_time && timestampOk e.end_time &&
    decide (e.text ≠ []) && decide ('\n' ∉ e.text) &&
    decide (stripChars e.text = e.text)

theorem goodEntry_unpack {e : SubtitleEntry} (hg : goodEntry e = true) :
    0 ≤ e.index ∧ timestampOk e.start_time = true ∧ timestampOk e.end_time = true ∧
      e.text ≠ [] ∧ '\n' ∉ e.text ∧ stripChars e.text = e.text := by
  rw [goodEntry] at hg
  simp only [Bool.and_eq_true, decide_eq_true_eq] at hg
  obtain ⟨⟨⟨⟨⟨h1, h2⟩, h3⟩, h4⟩, h5⟩, h6⟩ := hg
  exact ⟨h1, h2, h3, h4, h5, h6⟩

theorem entryChars_eq_body (e : SubtitleEntry) :
    entryChars e = bodyChars e ++ ['\n', '\n'] := by
  rw [entryChars, bodyChars, timingChars]
  simp [List.append_assoc]

theorem tsShape_inv {p : List Char} (h : tsShape p = true) :
    p.length = 12 ∧ ∀ c ∈ p, isDigitC c = true ∨ c = ':' ∨ c = ',' := by
  rw [tsShape] at h
  simp only [Bool.and_eq_true, decide_eq_true_eq] at h
  obtain ⟨⟨⟨⟨⟨⟨⟨⟨⟨⟨⟨⟨hL, h0⟩, h1⟩, h2⟩, h3⟩, h4⟩, h5⟩, h6⟩, h7⟩, h8⟩, h9⟩, h10⟩, h11⟩ := h
  refine ⟨hL, ?_⟩
  intro c hc
  rw [List.mem_iff_getElem] at hc
  obtain ⟨i, hi, rfl⟩ := hc
  have hg : ∀ j, ∀ hj : j < p.length, p.getD j 'x' = p[j] := by
    intro j hj
    rw [List.getD_eq_getElem?_getD, List.getElem?_eq_getElem hj]
    rfl
  have hi12 : i < 12 := by omega
  interval_cases i
  · rw [hg 0 (by omega)] at h0; exact Or.inl h0
  · rw [hg 1 (by omega)] at h1; exact Or.inl h1
  · rw [hg 2 (by omega)] at h2; exact Or.inr (Or.inl h2)
  · rw [hg 3 (by omega)] at h3; exact Or.inl h3
  · rw [hg 4 (by omega)] at h4; exact Or.inl h4
  · rw [hg 5 (by omega)] at h5; exact Or.inr (Or.inl h5)
  · rw [hg 6 (by omega)] at h6; exact Or.inl h6
  · rw [hg 7 (by omega)] at h7; exact Or.inl h7
  · rw [hg 8 (by omega)] at h8; exact Or.inr (Or.inr h8)
  · rw [hg 9 (by omega)] at h9; exact Or.inl h9
  · rw [hg 10 (by omega)] at h10; exact Or.inl h10
  · rw [hg 11 (by omega)] at h11; exact Or.inl h11

theorem timestampOk_eq (l : List Char) :
    timestampOk l = match matchTimestamp l with
      | some rem => rem.isEmpty
      | none => false := rfl

theorem timingRegexOk_eq (t : List Char) :
    timingRegexOk t = match (matchTimestamp t).bind (fun r =>
        (arrowAfterTs r).bind (fun r2 => matchTimestamp (r2.dropWhile isSpaceC))) with
      | some rem => rem.isEmpty
      | none => false := rfl

theorem timestampOk_inv {l : List Char} (h : timestampOk l = true) :
    tsShape l = true ∧ l.length = 12 := by
  rw [timestampOk_eq] at h
  cases hm : matchTimestamp l with
  | none => rw [hm] at h; exact absurd h (by simp)
  | some rem =>
    rw [hm] at h
    have h' : rem.isEmpty = true := h
    by_cases hts : tsShape (l.take 12) = true
    · rw [matchTimestamp, if_pos hts] at hm
      injection hm with hm'
      have hd : l.drop 12 = [] := by
        rw [hm']
        exact List.isEmpty_iff.mp h'
      have hlen : l.length ≤ 12 := by
        have hcongr := congrArg List.length hd
        rw [List.length_drop] at hcongr
        simp only [List.length_nil] at hcongr
        omega
      have htake : l.take 12 = l := List.take_of_length_le hlen
      rw [htake] at hts
      exact ⟨hts, (tsShape_inv hts).1⟩
    · rw [matchTimestamp, if_neg hts] at hm
      cases hm

theorem notSpace_ne_nl {c : Char} (h : isSpaceC c = false) : c ≠ '\n' := by
  intro he
  subst he
  exact absurd h (by decide)

theorem timestampOk_chars {l : List Char} (h : timestampOk l = true) :
    ∀ c ∈ l, isSpaceC c = false ∧ c ≠ '-' := by
  obtain ⟨hts, _⟩ := timestampOk_inv h
  intro c hc
  rcases (tsShape_inv hts).2 c hc with hd | he | he
  · exact ⟨isDigitC_ne_space hd, isDigitC_ne_minus hd⟩
  · subst he; exact ⟨by decide, by decide⟩
  · subst he; exact ⟨by decide, by decide⟩

theorem matchTimestamp_append {ts r : List Char} (h : timestampOk ts = true) :
    matchTimestamp (ts ++ r) = some r := by
  obtain ⟨hts, hlen⟩ := timestampOk_inv h
  rw [matchTimestamp, List.take_left' hlen, List.drop_left' hlen, if_pos hts]

theorem timingRegexOk_canonical {st et : List Char} (h1 : timestampOk st = true)
    (h2 : timestampOk et = true) :
    timingRegexOk (st ++ ' ' :: '-' :: '-' :: '>' :: ' ' :: et) = true := by
  rw [timingRegexOk_eq, matchTimestamp_append h1]
  simp only [Option.some_bind]
  rw [arrowAfterTs]
  have hdw : (' ' :: '-' :: '-' :: '>' :: ' ' :: et).dropWhile isSpaceC
      = '-' :: '-' :: '>' :: ' ' :: et := by
    rw [List.dropWhile_cons, if_pos (by decide), List.dropWhile_cons, if_neg (by decide)]
  rw [hdw]
  rw [show matchCh '-' ('-' :: '-' :: '>' :: ' ' :: et) = some ('-' :: '>' :: ' ' :: et) from by
    rw [matchCh, if_pos rfl]]
  simp only [Option.some_bind]
  rw [show matchCh '-' ('-' :: '>' :: ' ' :: et) = some ('>' :: ' ' :: et) from by
    rw [matchCh, if_pos rfl]]
  simp only [Option.some_bind]
  rw [show matchCh '>' ('>' :: ' ' :: et) = some (' ' :: et) from by
    rw [matchCh, if_pos rfl]]
  simp only [Option.some_bind]
  have hdw2 : (' ' :: et).dropWhile isSpaceC = et := by
    rw [List.dropWhile_cons, if_pos (by decide)]
    exact dropWhile_eq_self_of (fun c hc => (timestampOk_chars h2 c hc).1)
  rw [hdw2]
  obtain ⟨hts2, hlen2⟩ := timestampOk_inv h2
  rw [matchTimestamp, List.take_of_length_le (by omega), if_pos hts2,
    List.drop_eq_nil_of_le (by omega)]
  rfl

theorem splitArrow_sep_exact {y : List Char} : ∀ (x : List Char), (∀ c ∈ x, c ≠ '-') →
    splitArrow (x ++ ' ' :: '-' :: '-' :: '>' :: ' ' :: y) = x :: splitArrow y := by
  intro x
  induction x with
  | nil =>
    intro _
    rw [List.nil_append,
      splitArrow_cons_sep (show isArrowStart (' ' :: '-' :: '-' :: '>' :: ' ' :: y) = true
        from by rfl)]
    rfl
  | cons c x' ih =>
    intro hx
    have hne : isArrowStart (c :: (x' ++ ' ' :: '-' :: '-' :: '>' :: ' ' :: y)) = false := by
      rw [isArrowStart, decide_eq_false_iff_not]
      intro htake
      cases x' with
      | nil =>
        exact absurd (show (' ' : Char) = '-' from
          congrArg (fun l => l.getD 1 'x') htake) (by decide)
      | cons a x'' =>
        exact hx a (by simp) (show a = '-' from
          congrArg (fun l => l.getD 1 'x') htake)
    rw [List.cons_append, splitArrow_cons_ne hne,
      ih (fun z hz => hx z (List.mem_cons_of_mem c hz))]
    rfl

theorem hasArrowSep_dash : ∀ {l : List Char}, hasArrowSep l = true → '-' ∈ l := by
  intro l
  induction l with
  | nil => intro h; simp [hasArrowSep] at h
  | cons c cs ih =>
    intro h
    rw [hasArrowSep, Bool.or_eq_true] at h
    rcases h with h | h
    · rw [isArrowStart, decide_eq_true_eq] at h
      have hm : '-' ∈ (c :: cs).take 5 := by rw [h]; simp
      exact List.mem_of_mem_take hm
    · exact List.mem_cons_of_mem c (ih h)

theorem splitArrow_timing {st et : List Char} (h1 : timestampOk st = true)
    (h2 : timestampOk et = true) :
    splitArrow (st ++ ' ' :: '-' :: '-' :: '>' :: ' ' :: et) = [st, et] := by
  rw [splitArrow_sep_exact st (fun c hc => (timestampOk_chars h1 c hc).2)]
  have hno : hasArrowSep et = false := by
    by_contra hcon
    rw [Bool.not_eq_false] at hcon
    exact absurd rfl ((timestampOk_chars h2 '-' (hasArrowSep_dash hcon)).2)
  rw [splitArrow_no_sep hno]

theorem parsePyInt_intChars {i : ℤ} (h : 0 ≤ i) : parsePyInt (intChars i) = some i := by
  rw [intChars, if_neg (by omega), parsePyInt_natChars, Int.toNat_of_nonneg h]

theorem intChars_digits {i : ℤ} (h : 0 ≤ i) :
    intChars i ≠ [] ∧ ∀ c ∈ intChars i, isDigitC c = true := by
  rw [intChars, if_neg (by omega)]
  obtain ⟨h1, h2, _⟩ := natChars_spec (i.toNat + 1) i.toNat (by omega)
  exact ⟨h1, h2⟩

theorem timingChars_no_nl {e : SubtitleEntry} (h1 : timestampOk e.start_time = true)
    (h2 : timestampOk e.end_time = true) :
    ∀ c ∈ timingChars e, c ≠ '\n' := by
  intro c hc
  rw [timingChars, List.mem_append] at hc
  rcases hc with hc | hc
  · exact notSpace_ne_nl (timestampOk_chars h1 c hc).1
  · simp only [List.mem_cons] at hc
    rcases hc with rfl | rfl | rfl | rfl | rfl | hc
    · decide
    · decide
    · decide
    · decide
    · decide
    · exact notSpace_ne_nl (timestampOk_chars h2 c hc).1

theorem bodyChars_shape {e : SubtitleEntry} (hg : goodEntry e = true) :
    (∃ c bs, bodyChars e = c :: bs ∧ isDigitC c = true) ∧
      (∃ ms d, bodyChars e = ms ++ [d] ∧ isSpaceC d = false) := by
  obtain ⟨hidx, hst, het, htne, htnl, htstrip⟩ := goodEntry_unpack hg
  obtain ⟨hicne, hicd⟩ := intChars_digits hidx
  obtain ⟨c0, ic', hic⟩ : ∃ c0 ic', intChars e.index = c0 :: ic' := by
    cases hx : intChars e.index with
    | nil => exact absurd hx hicne
    | cons c0 ic' => exact ⟨c0, ic', rfl⟩
  obtain ⟨tm, td, htext, htd⟩ : ∃ tm td, e.text = tm ++ [td] ∧ isSpaceC td = false := by
    refine ⟨e.text.dropLast, e.text.getLast htne, (List.dropLast_append_getLast htne).symm, ?_⟩
    apply stripChars_last_not_space (m := e.text.dropLast)
    rw [List.dropLast_append_getLast htne]
    exact htstrip
  constructor
  · refine ⟨c0, ic' ++ '\n' :: (timingChars e ++ '\n' :: e.text), ?_,
      hicd c0 (by rw [hic]; exact List.mem_cons_self c0 ic')⟩
    rw [bodyChars, hic, List.cons_append]
  · refine ⟨intChars e.index ++ '\n' :: (timingChars e ++ '\n' :: tm), td, ?_, htd⟩
    rw [bodyChars, htext]
    simp [List.append_assoc]

theorem bodyChars_strip {e : SubtitleEntry} (hg : goodEntry e = true) :
    stripChars (bodyChars e) = bodyChars e := by
  obtain ⟨⟨c, bs, hcbs, hcdig⟩, ⟨ms, d, hmsd, hd⟩⟩ := bodyChars_shape hg
  cases ms with
  | nil =>
    rw [List.nil_append] at hmsd
    rw [hmsd]
    apply stripChars_of_no_space
    intro x hx
    rw [List.mem_singleton] at hx
    subst hx
    exact hd
  | cons m0 ms' =>
    have hc : c = m0 := by
      have h2 : c :: bs = (m0 :: ms') ++ [d] := hcbs.symm.trans hmsd
      rw [List.cons_append] at h2
      injection h2
    rw [hmsd, List.cons_append]
    exact stripChars_eq_self_of_ends (hc ▸ isDigitC_ne_space hcdig) hd

theorem bodyChars_lines {e : SubtitleEntry} (hg : goodEntry e = true) :
    splitLines (bodyChars e) = [intChars e.index, timingChars e, e.text] := by
  obtain ⟨hidx, hst, het, htne, htnl, htstrip⟩ := goodEntry_unpack hg
  obtain ⟨_, hicd⟩ := intChars_digits hidx
  rw [bodyChars]
  rw [splitLines_append_nl (fun c hc => notSpace_ne_nl (isDigitC_ne_space (hicd c hc)))]
  rw [splitLines_append_nl (timingChars_no_nl hst het)]
  rw [splitLines_no_nl (fun c hc he => htnl (he ▸ hc))]

theorem bodyChars_noDoubleNl {e : SubtitleEntry} (hg : goodEntry e = true) :
    noDoubleNl (bodyChars e) = true := by
  obtain ⟨hidx, hst, het, htne, htnl, htstrip⟩ := goodEntry_unpack hg
  obtain ⟨_, hicd⟩ := intChars_digits hidx
  rw [bodyChars]
  apply noDoubleNl_glue (fun c hc => notSpace_ne_nl (isDigitC_ne_space (hicd c hc)))
  · apply noDoubleNl_glue (timingChars_no_nl hst het)
    · exact noDoubleNl_of_no_nl (fun c hc he => htnl (he ▸ hc))
    · cases htext : e.text with
      | nil => simp
      | cons t0 ts =>
        simp only [List.head?_cons]
        intro hcontra
        apply htnl
        rw [htext]
        have ht0 : t0 = '\n' := by injection hcontra
        rw [← ht0]
        exact List.mem_cons_self t0 ts
  · obtain ⟨hts1, hlen1⟩ := timestampOk_inv hst
    cases hstx : e.start_time with
    | nil => rw [hstx] at hlen1; simp at hlen1
    | cons s0 ss =>
      have hs0 : s0 ≠ '\n' := by
        refine notSpace_ne_nl (timestampOk_chars hst s0 ?_).1
        rw [hstx]
        exact List.mem_cons_self s0 ss
      rw [timingChars, hstx]
      simp only [List.cons_append, List.head?_cons]
      intro hcontra
      exact hs0 (by injection hcontra)

theorem firstLine_body {e : SubtitleEntry} (hg : goodEntry e = true) :
    firstLineIsNumber (bodyChars e) = true := by
  obtain ⟨hidx, _, _, _, _, _⟩ := goodEntry_unpack hg
  obtain ⟨hicne, hicd⟩ := intChars_digits hidx
  rw [firstLineIsNumber, bodyChars_lines hg]
  rw [show ([intChars e.index, timingChars e, e.text]).getD 0 [] = intChars e.index from rfl]
  rw [stripChars_of_no_space (fun c hc => isDigitC_ne_space (hicd c hc))]
  rw [Bool.and_eq_true]
  constructor
  · cases hx : intChars e.index with
    | nil => exact absurd hx hicne
    | cons a l => rfl
  · rw [List.all_eq_true]
    exact fun c hc => hicd c hc

theorem parseBlockTry_eq (lines : List (List Char)) :
    parseBlockTry lines = match parsePyInt (lines.getD 0 []) with
      | none => .error .rawValueError
      | some idx =>
        if timingRegexOk (lines.getD 1 []) = false then
          .error (.invalidTimingInBlock idx)
        else
          match splitArrow (lines.getD 1 []) with
          | [s, e] =>
            .ok ⟨idx, stripChars s, stripChars e, stripChars (joinSpace (lines.drop 2))⟩
          | _ => .error .rawValueError := rfl

theorem parseBlock_body {e : SubtitleEntry} (hg : goodEntry e = true) :
    parseBlock (bodyChars e) = .ok (some e) := by
  obtain ⟨hidx, hst, het, htne, htnl, htstrip⟩ := goodEntry_unpack hg
  have hreg : timingRegexOk (timingChars e) = true := by
    rw [timingChars]
    exact timingRegexOk_canonical hst het
  have hsa : splitArrow (timingChars e) = [e.start_time, e.end_time] := by
    rw [timingChars]
    exact splitArrow_timing hst het
  have hsst : stripChars e.start_time = e.start_time :=
    stripChars_of_no_space (fun c hc => (timestampOk_chars hst c hc).1)
  have hset : stripChars e.end_time = e.end_time :=
    stripChars_of_no_space (fun c hc => (timestampOk_chars het c hc).1)
  have hTry : parseBlockTry [intChars e.index, timingChars e, e.text] = .ok e := by
    rw [parseBlockTry_eq]
    simp only [show ([intChars e.index, timingChars e, e.text]).getD 0 []
        = intChars e.index from rfl,
      show ([intChars e.index, timingChars e, e.text]).getD 1 [] = timingChars e from rfl]
    rw [parsePyInt_intChars hidx]
    simp only [hreg, hsa]
    show Except.ok ⟨e.index, stripChars e.start_time, stripChars e.end_time,
        stripChars (joinSpace (([intChars e.index, timingChars e, e.text]).drop 2))⟩
      = Except.ok e
    rw [show (([intChars e.index, timingChars e, e.text]).drop 2) = [e.text] from rfl]
    rw [show joinSpace [e.text] = e.text from rfl]
    rw [hsst, hset, htstrip]
  rw [parseBlock, bodyChars_strip hg, bodyChars_lines hg]
  rw [if_neg (by simp)]
  rw [hTry]

/-- The saved blocks joined back with the inter-block blank line but
without the final one. -/
def blocksJoined : List SubtitleEntry → List Char
  | [] => []
  | [e] => bodyChars e
  | e :: es => bodyChars e ++ '\n' :: '\n' :: blocksJoined es

theorem blocksJoined_cons_cons (e e' : SubtitleEntry) (es : List SubtitleEntry) :
    blocksJoined (e :: e' :: es) = bodyChars e ++ '\n' :: '\n' :: blocksJoined (e' :: es) := rfl

theorem save_eq_blocks : ∀ (S : List SubtitleEntry), S ≠ [] →
    save_srt_content S = blocksJoined S ++ ['\n', '\n'] := by
  intro S
  induction S with
  | nil => intro h; exact absurd rfl h
  | cons e es ih =>
    intro _
    cases es with
    | nil =>
      rw [save_srt_content, save_srt_content, List.append_nil, entryChars_eq_body]
      rfl
    | cons e' es' =>
      rw [save_srt_content, ih (by simp), entryChars_eq_body, blocksJoined_cons_cons]
      simp [List.append_assoc]

theorem blocksJoined_facts : ∀ (S : List SubtitleEntry), S ≠ [] →
    (∀ e ∈ S, goodEntry e = true) →
    (∃ c bs, blocksJoined S = c :: bs ∧ isDigitC c = true) ∧
      (∃ ms d, blocksJoined S = ms ++ [d] ∧ isSpaceC d = false) := by
  intro S
  induction S with
  | nil => intro h; exact absurd rfl h
  | cons e es ih =>
    intro _ hgood
    have hge : goodEntry e = true := hgood e (List.mem_cons_self e es)
    obtain ⟨⟨c, bs, hcbs, hcdig⟩, ⟨ms, d, hmsd, hd⟩⟩ := bodyChars_shape hge
    cases es with
    | nil =>
      refine ⟨⟨c, bs, ?_, hcdig⟩, ⟨ms, d, ?_, hd⟩⟩
      · rw [show blocksJoined [e] = bodyChars e from rfl]
        exact hcbs
      · rw [show blocksJoined [e] = bodyChars e from rfl]
        exact hmsd
    | cons e' es' =>
      obtain ⟨⟨c2, bs2, hcbs2, hcdig2⟩, ⟨ms2, d2, hmsd2, hd2⟩⟩ :=
        ih (by simp) (fun x hx => hgood x (List.mem_cons_of_mem e hx))
      constructor
      · refine ⟨c, bs ++ '\n' :: '\n' :: blocksJoined (e' :: es'), ?_, hcdig⟩
        rw [blocksJoined_cons_cons, hcbs]
        rfl
      · refine ⟨bodyChars e ++ '\n' :: '\n' :: ms2, d2, ?_, hd2⟩
        rw [blocksJoined_cons_cons, hmsd2]
        simp [List.append_assoc]

theorem splitBlocks_blocksJoined : ∀ (S : List SubtitleEntry), S ≠ [] →
    (∀ e ∈ S, goodEntry e = true) →
    splitBlocks (blocksJoined S) = S.map bodyChars := by
  intro S
  induction S with
  | nil => intro h; exact absurd rfl h
  | cons e es ih =>
    intro _ hgood
    have hge : goodEntry e = true := hgood e (List.mem_cons_self e es)
    cases es with
    | nil =>
      rw [show blocksJoined [e] = bodyChars e from rfl,
        splitBlocks_single (bodyChars_noDoubleNl hge)]
      rfl
    | cons e' es' =>
      rw [blocksJoined_cons_cons]
      have hgood' : ∀ x ∈ e' :: es', goodEntry x = true :=
        fun x hx => hgood x (List.mem_cons_of_mem e hx)
      obtain ⟨_, ⟨ms, d, hmsd, hd⟩⟩ := bodyChars_shape hge
      have hlast : (bodyChars e).getLast? ≠ some '\n' := by
        rw [hmsd, List.getLast?_concat]
        intro hc
        have hdc : d = '\n' := by injection hc
        exact notSpace_ne_nl hd hdc
      obtain ⟨⟨c2, bs2, hcbs2, hdig2⟩, _⟩ := blocksJoined_facts (e' :: es') (by simp) hgood'
      have hhead : (blocksJoined (e' :: es')).head? ≠ some '\n' := by
        rw [hcbs2]
        simp only [List.head?_cons]
        intro hc
        have hc2 : c2 = '\n' := by injection hc
        exact notSpace_ne_nl (isDigitC_ne_space hdig2) hc2
      rw [splitBlocks_sep (bodyChars e) (blocksJoined (e' :: es'))
        (bodyChars_noDoubleNl hge) hlast hhead]
      rw [ih (by simp) hgood']
      rfl

theorem collectEntries_map_body : ∀ (S : List SubtitleEntry),
    (∀ e ∈ S, goodEntry e = true) →
    collectEntries (S.map bodyChars) = .ok S := by
  intro S
  induction S with
  | nil => intro _; rfl
  | cons e es ih =>
    intro hgood
    have hrest := ih (fun x hx => hgood x (List.mem_cons_of_mem e hx))
    simp only [List.map_cons, collectEntries]
    rw [parseBlock_body (hgood e (List.mem_cons_self e es))]
    simp only [hrest]

/-- C5 (amended): serializing with `save_srt` and parsing back with
`parse_srt` is the identity on every nonempty entry list whose entries
are good: nonnegative index, twelve-character `HH:MM:SS,mmm` timestamps,
and a nonempty single-line text that `strip()` leaves unchanged. The
claim as stated, for every sequence, is false: a text containing a
newline is read back with the newline replaced by a space (see the
counterexample), and the empty list renders to an empty file that
`parse_srt` rejects. -/
theorem c5_roundtrip (S : List SubtitleEntry) (hne : S ≠ [])
    (hgood : ∀ e ∈ S, goodEntry e = true) :
    parse_srt (save_srt_content S) = .ok S := by
  obtain ⟨⟨c, bs, hcbs, hcdig⟩, ⟨ms, d, hmsd, hd⟩⟩ := blocksJoined_facts S hne hgood
  have hstripBJ : stripChars (blocksJoined S) = blocksJoined S := by
    cases ms with
    | nil =>
      rw [List.nil_append] at hmsd
      rw [hmsd]
      apply stripChars_of_no_space
      intro x hx
      rw [List.mem_singleton] at hx
      subst hx
      exact hd
    | cons m0 ms' =>
      have hc : c = m0 := by
        have h2 : c :: bs = (m0 :: ms') ++ [d] := hcbs.symm.trans hmsd
        rw [List.cons_append] at h2
        injection h2
      rw [hmsd, List.cons_append]
      exact stripChars_eq_self_of_ends (hc ▸ isDigitC_ne_space hcdig) hd
  have hBJne : blocksJoined S ≠ [] := by
    rw [hcbs]
    simp
  have hstrip : stripChars (save_srt_content S) = blocksJoined S := by
    rw [save_eq_blocks S hne]
    refine stripChars_append_ws hstripBJ hBJne ?_
    intro x hx
    simp only [List.mem_cons, List.not_mem_nil, or_false] at hx
    rcases hx with rfl | rfl <;> decide
  rw [parse_srt, hstrip, splitBlocks_blocksJoined S hne hgood]
  rw [if_neg (by rw [hcbs]; simp)]
  have hany : (S.map bodyChars).any firstLineIsNumber = true := by
    cases S with
    | nil => exact absurd rfl hne
    | cons e es =>
      rw [List.map_cons, List.any_cons,
        firstLine_body (hgood e (List.mem_cons_self e es))]
      exact Bool.true_or _
  rw [if_neg (by rw [hany]; simp)]
  exact collectEntries_map_body S hgood

/-- Witness for amended C5: a concrete two-entry list round-trips. -/
theorem c5_roundtrip_witness :
    parse_srt (save_srt_content
      [⟨1, ("00:00:01,000").toList, ("00:00:04,000").toList, ("Hello.").toList⟩,
       ⟨2, ("00:00:04,500").toList, ("00:00:08,000").toList, ("Bye.").toList⟩]) =
      .ok [⟨1, ("00:00:01,000").toList, ("00:00:04,000").toList, ("Hello.").toList⟩,
       ⟨2, ("00:00:04,500").toList, ("00:00:08,000").toList, ("Bye.").toList⟩] :=
  c5_roundtrip _ (by decide) (by decide)

/-- C5 (counterexample): an entry whose text spans two lines does not
round-trip — `parse_srt` rejoins the block's text lines with single
spaces, so the newline comes back as a space. -/
theorem c5_newline_text_not_roundtrip :
    parse_srt (save_srt_content
      [⟨1, ("00:00:01,000").toList, ("00:00:02,000").toList, ("A\nB").toList⟩]) =
      .ok [⟨1, ("00:00:01,000").toList, ("00:00:02,000").toList, ("A B").toList⟩] ∧
    ("A B").toList ≠ ("A\nB").toList := ⟨by rfl, by decide⟩
